import Mathlib

/-!
Verification of the `avl-tree` repository (Rust): an in-memory AVL-tree
key-value container (`src/node.rs`, `src/avltree.rs`, `src/iterator.rs`).

Shallow embedding conventions:
* `Link K V` mirrors `type Link<K, V> = Option<Box<Node<K, V>>>`, flattened
  into a single inductive (`nil` = `None`, `node` = `Some(Box<Node{..}>)`).
  The facade struct `AVLTree` holds exactly one `Link` root, so a tree is
  represented by its root `Link`.
* Rust `K: PartialOrd` is used by the code only through `<`/`>` with the
  remaining case treated as equality; we model keys with a `LinearOrder`.
* `height: u32` and the `i32` balance difference become `Nat` and `Int`;
  heights of AVL trees are logarithmic in the node count, so `u32`/`i32`
  overflow is unreachable and the pure model drops the wrap-around.
* The panicking branches (`expect("AVL broken")` in the rotations and
  `unreachable!()` in `rotate_if_necessary`) are modelled by `Option`:
  `none` means the Rust code panics, `some t` means it returns `t`.
-/

set_option linter.unusedSectionVars false
set_option linter.unusedVariables false

namespace AvlVerif

/-- `Link<K, V> = Option<Box<Node<K, V>>>` from `node.rs`, flattened:
`node key value height left right` is `Some(Box(Node { .. }))`. -/
inductive Link (K V : Type) : Type where
  | nil : Link K V
  | node (key : K) (value : V) (height : Nat) (left right : Link K V) : Link K V
deriving Repr, DecidableEq

namespace Link

variable {K V : Type} [LinearOrder K]

/-- `Node::height(node: &Link<K, V>)`: the cached height field, 0 for `None`. -/
def heightOf : Link K V → Nat
  | nil => 0
  | node _ _ h _ _ => h

/-- `Node::diff_of_height`: cached height of left minus cached height of right,
computed in `i32` in the source. -/
def diff_of_height (l r : Link K V) : Int :=
  (heightOf l : Int) - (heightOf r : Int)

/-- `Node::left_rotate` on the node `(k, v, h, l, r)`.  `none` is the
`expect("AVL broken")` panic when the right child is absent.  Both heights are
recomputed by `update_height` exactly as in the source (old node first). -/
def left_rotate (k : K) (v : V) (l r : Link K V) : Option (Link K V) :=
  match r with
  | nil => none
  | node rk rv _ rl rr =>
    let self := node k v (max (heightOf l) (heightOf rl) + 1) l rl
    some (node rk rv (max (heightOf self) (heightOf rr) + 1) self rr)

/-- `Node::right_rotate` on the node `(k, v, h, l, r)`. -/
def right_rotate (k : K) (v : V) (l r : Link K V) : Option (Link K V) :=
  match l with
  | nil => none
  | node lk lv _ ll lr =>
    let self := node k v (max (heightOf lr) (heightOf r) + 1) lr r
    some (node lk lv (max (heightOf ll) (heightOf self) + 1) ll self)

/-- `Node::left_balance`: restore balance when the left subtree is higher by 2.
The stale `h` field of `self` is never read (`right_rotate` recomputes it), so
it is not a parameter. -/
def left_balance (k : K) (v : V) (l r : Link K V) : Option (Link K V) :=
  match l with
  | nil => none
  | node lk lv lh ll lr =>
    if heightOf ll < heightOf lr then
      match left_rotate lk lv ll lr with
      | none => none
      | some rotated => right_rotate k v rotated r
    else
      right_rotate k v (node lk lv lh ll lr) r

/-- `Node::right_balance`: restore balance when the right subtree is higher by 2. -/
def right_balance (k : K) (v : V) (l r : Link K V) : Option (Link K V) :=
  match r with
  | nil => none
  | node rk rv rh rl rr =>
    if heightOf rl > heightOf rr then
      match right_rotate rk rv rl rr with
      | none => none
      | some rotated => left_rotate k v l rotated
    else
      left_rotate k v l (node rk rv rh rl rr)

/-- `Node::rotate_if_necessary` on a node whose height field is `h`.
The final `none` is the `unreachable!()` branch. -/
def rotate_if_necessary (k : K) (v : V) (h : Nat) (l r : Link K V) :
    Option (Link K V) :=
  let d := diff_of_height l r
  if -1 ≤ d ∧ d ≤ 1 then some (node k v h l r)
  else if d = -2 then right_balance k v l r
  else if d = 2 then left_balance k v l r
  else none

/-- `Node::update_node`: `update_height` (which overwrites the stale height
field, so the old field is not a parameter) followed by `rotate_if_necessary`. -/
def update_node (k : K) (v : V) (l r : Link K V) : Option (Link K V) :=
  rotate_if_necessary k v (max (heightOf l) (heightOf r) + 1) l r

/-- `Node::insert` fused with `AVLTree::insert`'s empty-root case: the `nil`
equation is both `AVLTree::insert` on an empty root and the `None`-child arm of
`Node::insert` (both build `Node::new(key, value)`, a height-1 leaf). On an
existing key the value is overwritten and the node returned immediately, with
its stored height, and no `update_node`. -/
def insert : Link K V → K → V → Option (Link K V)
  | nil, key, value => some (node key value 1 nil nil)
  | node k v h l r, key, value =>
    if key < k then -- self.key > key: descend left
      (insert l key value).bind fun l2 => update_node k v l2 r
    else if k < key then -- self.key < key: descend right
      (insert r key value).bind fun r2 => update_node k v l r2
    else some (node k value h l r)

/-- `Node::remove_min` on the node `(k, v, h, l, r)`.  The extracted minimum is
returned as its `(key, value, height)` triple: the source returns it with both
children already `take`n out (`None`), its height field left stale. -/
def remove_min (k : K) (v : V) (h : Nat) :
    Link K V → Link K V → Option (Link K V × K × V × Nat)
  | nil, r => some (r, k, v, h)
  | node lk lv lh ll lr, r =>
    (remove_min lk lv lh ll lr).bind fun p =>
      (update_node k v p.1 r).map fun t => (t, p.2)

/-- `Node::combine_two_subtrees left right`: extract the minimum of `right`,
make it the new root over `left` and the remainder, and `update_node` it
(which overwrites the extracted node's stale height). -/
def combine_two_subtrees (lk : K) (lv : V) (lh : Nat) (ll lr : Link K V)
    (rk : K) (rv : V) (rh : Nat) (rl rr : Link K V) : Option (Link K V) :=
  (remove_min rk rv rh rl rr).bind fun p =>
    update_node p.2.1 p.2.2.1 (node lk lv lh ll lr) p.1

/-- `Node::delete_root`: both children were already `take`n out of `self`. -/
def delete_root : Link K V → Link K V → Option (Link K V)
  | nil, nil => some nil
  | node lk lv lh ll lr, nil => some (node lk lv lh ll lr)
  | nil, node rk rv rh rl rr => some (node rk rv rh rl rr)
  | node lk lv lh ll lr, node rk rv rh rl rr =>
    combine_two_subtrees lk lv lh ll lr rk rv rh rl rr

/-- `Node::delete` fused with `AVLTree::delete`'s empty-root case (`nil` stays
`nil`).  When the child on the search side is absent the node is returned
unchanged (the `Some(Box::new(self))` fall-through), with no `update_node`. -/
def delete : Link K V → K → Option (Link K V)
  | nil, _ => some nil
  | node k v h l r, key =>
    if k < key then
      match r with
      | nil => some (node k v h l r)
      | node rk rv rh rl rr =>
        (delete (node rk rv rh rl rr) key).bind fun r2 => update_node k v l r2
    else if key < k then
      match l with
      | nil => some (node k v h l r)
      | node lk lv lh ll lr =>
        (delete (node lk lv lh ll lr) key).bind fun l2 => update_node k v l2 r
    else delete_root l r

/-- `Node::search_pair` fused with `AVLTree::get_pair`'s
`root.as_ref().and_then(..)` (the `nil` equation). -/
def search_pair : Link K V → K → Option (K × V)
  | nil, _ => none
  | node k v _ l r, key =>
    if k < key then search_pair r key
    else if key < k then search_pair l key
    else some (k, v)

/-- `Node::search` / `AVLTree::get`. -/
def search (t : Link K V) (key : K) : Option V :=
  (search_pair t key).map Prod.snd

/-- `AVLTree::contains`. -/
def contains (t : Link K V) (key : K) : Bool :=
  (search t key).isSome

/-- `AVLTree::get_or`. -/
def get_or (t : Link K V) (key : K) (default : V) : V :=
  (search t key).getD default

/-- `Node::min_pair` on the node `(k, v, left)`:
`left.as_ref().map_or((key, value), |l| l.min_pair())`. -/
def node_min_pair (k : K) (v : V) : Link K V → K × V
  | nil => (k, v)
  | node lk lv _ ll _ => node_min_pair lk lv ll

/-- `Node::max_pair` on the node `(k, v, right)`. -/
def node_max_pair (k : K) (v : V) : Link K V → K × V
  | nil => (k, v)
  | node rk rv _ _ rr => node_max_pair rk rv rr

/-- `AVLTree::min_pair`. -/
def min_pair : Link K V → Option (K × V)
  | nil => none
  | node k v _ l _ => some (node_min_pair k v l)

/-- `AVLTree::max_pair`. -/
def max_pair : Link K V → Option (K × V)
  | nil => none
  | node k v _ _ r => some (node_max_pair k v r)

/-- `Node::successor` fused with `AVLTree::successor`'s root `and_then`; the
`Some(ref succ)` arm is `succ.successor(key).or(Some((&self.key, &self.value)))`. -/
def successor : Link K V → K → Option (K × V)
  | nil, _ => none
  | node k v _ l r, key =>
    if key < k then -- self.key > *key
      match l with
      | nil => some (k, v)
      | node lk lv lh ll lr => (successor (node lk lv lh ll lr) key).or (some (k, v))
    else if k < key then successor r key
    else
      match r with
      | nil => none
      | node rk rv _ rl _ => some (node_min_pair rk rv rl)

/-- `Node::predecessor` fused with `AVLTree::predecessor`'s root `and_then`. -/
def predecessor : Link K V → K → Option (K × V)
  | nil, _ => none
  | node k v _ l r, key =>
    if k < key then -- self.key < *key
      match r with
      | nil => some (k, v)
      | node rk rv rh rl rr => (predecessor (node rk rv rh rl rr) key).or (some (k, v))
    else if key < k then predecessor l key
    else
      match l with
      | nil => none
      | node lk lv _ _ lr => some (node_max_pair lk lv lr)

/-- `Node::prev_order` (pre-order key list; the source pushes the keys into a
buffer in this exact order). -/
def prev_order : Link K V → List K
  | nil => []
  | node k _ _ l r => k :: (prev_order l ++ prev_order r)

/-- `Node::in_order` (in-order key list). -/
def in_order : Link K V → List K
  | nil => []
  | node k _ _ l r => in_order l ++ k :: in_order r

/-- `Node::post_order` (post-order key list). -/
def post_order : Link K V → List K
  | nil => []
  | node k _ _ l r => post_order l ++ post_order r ++ [k]

/-- Number of nodes; used as the breadth-first-search measure and for
iterator fuel. -/
def size : Link K V → Nat
  | nil => 0
  | node _ _ _ l r => size l + size r + 1

/-- Sum of sizes of a worklist, for the BFS termination measure. -/
def sizes : List (Link K V) → Nat
  | [] => 0
  | t :: rest => size t + sizes rest

/-- The queue loop of `Node::level_order`: pop the front, emit its key, push
its present children.  The source's queue holds only present nodes; popping a
`nil` (which the source never enqueues, since `level_order` pushes only `Some`
children) just skips it. -/
def bfs : List (Link K V) → List K
  | [] => []
  | nil :: rest => bfs rest
  | node k _ _ l r :: rest => k :: bfs (rest ++ [l, r])
termination_by queue => 2 * sizes queue + queue.length
decreasing_by
  · simp [sizes, size]; try omega
  · have h2 : sizes (rest ++ [l, r]) = sizes rest + (size l + size r) := by
      induction rest with
      | nil => simp [sizes, size]
      | cons t ts ih => simp [sizes, ih]; try omega
    simp [sizes, size, h2]; omega

/-- `Node::level_order` (breadth-first key list), seeded with the root when
present. -/
def level_order (t : Link K V) : List K :=
  match t with
  | nil => bfs ([] : List (Link K V))
  | node k v h l r => bfs [node k v h l r]

/-- `Node::is_leaf`. -/
def is_leaf : Link K V → Bool
  | nil => false
  | node _ _ _ l r =>
    (match l with | nil => true | _ => false) &&
    (match r with | nil => true | _ => false)

/-- `Node::is_avl_node` on the node `(k, v, h, l, r)`: immediate-children key
order and cached-height balance; a leaf is trivially valid. -/
def is_avl_node (k : K) (l r : Link K V) : Bool :=
  if (match l with | nil => true | _ => false) &&
     (match r with | nil => true | _ => false) then true
  else if !(match l with | nil => true | node lk _ _ _ _ => decide (lk < k)) then
    false
  else if !(match r with | nil => true | node rk _ _ _ _ => decide (rk > k)) then
    false
  else if diff_of_height l r > 1 ∨ diff_of_height l r < -1 then false
  else true

/-- `Node::is_avl_tree` (on a `Link`, as in the source). -/
def is_avl_tree : Link K V → Bool
  | nil => true
  | node k _ _ l r => is_avl_node k l r && is_avl_tree l && is_avl_tree r

/-- `AVLTree::is_avl_tree`: the facade special-cases the empty tree to
`false` before delegating to `Node::is_avl_tree`. -/
def tree_is_avl (t : Link K V) : Bool :=
  match t with
  | nil => false
  | _ => is_avl_tree t

/-- `AVLTree::is_empty`. -/
def is_empty : Link K V → Bool
  | nil => true
  | _ => false

/-- `AVLTree::new()`: the empty root. -/
def newTree : Link K V := nil

end Link

/-- `std::collections::Bound<K>`, as used by `range_pair_iter`. -/
inductive Bound (K : Type) where
  | unbounded : Bound K
  | included (key : K) : Bound K
  | excluded (key : K) : Bound K
deriving Repr, DecidableEq

/-- `RangePairIter` from `iterator.rs`: a borrow of the tree, the two bounds
(`from`/`to`; both are Lean keywords, hence `from_`/`to_`), and the previously
yielded key. -/
structure RangePairIter (K V : Type) where
  tree : Link K V
  from_ : Bound K
  to_ : Bound K
  prev : Option K
deriving Repr, DecidableEq

namespace RangePairIter

variable {K V : Type} [LinearOrder K]

/-- `RangePairIter::new` / `AVLTree::range_pair_iter`. -/
def new (tree : Link K V) (lower upper : Bound K) : RangePairIter K V :=
  ⟨tree, lower, upper, none⟩

/-- `RangePairIter::get_lower_bound_pair`. -/
def get_lower_bound_pair (it : RangePairIter K V) : Option (K × V) :=
  match it.from_ with
  | .included key =>
    match it.tree.search_pair key with
    | some p => some p
    | none => it.tree.successor key
  | .excluded key => it.tree.successor key
  | .unbounded => it.tree.min_pair

/-- `RangePairIter::get_next_pair`. -/
def get_next_pair (it : RangePairIter K V) : Option (K × V) :=
  match it.prev with
  | none => get_lower_bound_pair it
  | some key => it.tree.successor key

/-- `RangePairIter::check_upper_bound`. -/
def check_upper_bound (it : RangePairIter K V) (current : K × V) :
    Option (K × V) :=
  let ok : Bool :=
    match it.to_ with
    | .included key => decide (current.1 ≤ key)
    | .excluded key => decide (current.1 < key)
    | .unbounded => true
  if ok then some current else none

/-- `RangePairIter::get_next_key_under`, i.e. `Iterator::next`: the yielded
item together with the iterator's state after the call (`prev` is updated
exactly when an item is yielded). -/
def get_next_key_under (it : RangePairIter K V) :
    Option (K × V) × RangePairIter K V :=
  match (get_next_pair it).bind fun cur => check_upper_bound it cur with
  | none => (none, it)
  | some p => (some p, { it with prev := some p.1 })

/-- Polling the iterator `fuel` times, collecting the yielded pairs until the
first empty poll. -/
def range_take : RangePairIter K V → Nat → List (K × V)
  | _, 0 => []
  | it, n + 1 =>
    match get_next_key_under it with
    | (none, _) => []
    | (some p, it2) => p :: range_take it2 n

end RangePairIter

namespace Link

variable {K V : Type} [LinearOrder K]

/-- The queue-building loop shared by `AVLTree::{preorder_iter, inorder_iter,
postorder_iter, levelorder_iter}`: for each key of the traversal, look up its
pair with `get_pair`, silently skipping lookup failures.  The resulting
`TraverseIter` (iterator.rs) yields exactly this queue front to back. -/
def lookup_pairs (t : Link K V) (keys : List K) : List (K × V) :=
  keys.filterMap fun key => t.search_pair key

/-- `AVLTree::preorder_iter`'s yielded sequence. -/
def preorder_iter (t : Link K V) : List (K × V) :=
  lookup_pairs t (prev_order t)

/-- `AVLTree::inorder_iter`'s yielded sequence. -/
def inorder_iter (t : Link K V) : List (K × V) :=
  lookup_pairs t (in_order t)

/-- `AVLTree::postorder_iter`'s yielded sequence. -/
def postorder_iter (t : Link K V) : List (K × V) :=
  lookup_pairs t (post_order t)

/-- `AVLTree::levelorder_iter`'s yielded sequence. -/
def levelorder_iter (t : Link K V) : List (K × V) :=
  lookup_pairs t (level_order t)

/-- Single-pass pre-order collection of the pairs themselves (the alternative
implementation the spec compares the two-pass iterators against). -/
def prev_order_pairs : Link K V → List (K × V)
  | nil => []
  | node k v _ l r => (k, v) :: (prev_order_pairs l ++ prev_order_pairs r)

/-- Single-pass in-order collection of the pairs; also the association-list
abstraction (`pairs`) of the tree. -/
def in_order_pairs : Link K V → List (K × V)
  | nil => []
  | node k v _ l r => in_order_pairs l ++ (k, v) :: in_order_pairs r

/-- Single-pass post-order collection of the pairs. -/
def post_order_pairs : Link K V → List (K × V)
  | nil => []
  | node k v _ l r => post_order_pairs l ++ post_order_pairs r ++ [(k, v)]

/-- Single-pass breadth-first collection of the pairs. -/
def bfs_pairs : List (Link K V) → List (K × V)
  | [] => []
  | nil :: rest => bfs_pairs rest
  | node k v _ l r :: rest => (k, v) :: bfs_pairs (rest ++ [l, r])
termination_by queue => 2 * sizes queue + queue.length
decreasing_by
  · simp [sizes, size]; try omega
  · have h2 : sizes (rest ++ [l, r]) = sizes rest + (size l + size r) := by
      induction rest with
      | nil => simp [sizes, size]
      | cons t ts ih => simp [sizes, ih]; try omega
    simp [sizes, size, h2]; omega

/-- Single-pass level-order collection of the pairs. -/
def level_order_pairs (t : Link K V) : List (K × V) :=
  match t with
  | nil => bfs_pairs ([] : List (Link K V))
  | node k v h l r => bfs_pairs [node k v h l r]

/-- The in-order association list of the tree (the abstract model). -/
def pairs (t : Link K V) : List (K × V) := in_order_pairs t

/-- Every key in the tree satisfies the (decidable) predicate `p`. -/
def all_keys (p : K → Bool) : Link K V → Bool
  | nil => true
  | node k _ _ l r => p k && all_keys p l && all_keys p r

/-- The binary-search-tree order invariant: at every node, all keys of the
left subtree are smaller and all keys of the right subtree larger. -/
def ordered : Link K V → Bool
  | nil => true
  | node k _ _ l r =>
    all_keys (fun x => decide (x < k)) l &&
    all_keys (fun x => decide (k < x)) r && ordered l && ordered r

/-- Every cached `height` field equals `1 + max(height(left), height(right))`
with an absent child counted as 0. -/
def heights_ok : Link K V → Bool
  | nil => true
  | node _ _ h l r =>
    (h == max (heightOf l) (heightOf r) + 1) && heights_ok l && heights_ok r

/-- The AVL balance invariant at every node (on the cached heights). -/
def balancedB : Link K V → Bool
  | nil => true
  | node _ _ _ l r =>
    (decide (-1 ≤ diff_of_height l r) && decide (diff_of_height l r ≤ 1)) &&
    balancedB l && balancedB r

/-- The full AVL invariant of the claims: correct cached heights, balance at
every node, and the BST order invariant. -/
def AvlB (t : Link K V) : Bool :=
  heights_ok t && ordered t && balancedB t

/-- One facade mutation: `AVLTree::insert` or `AVLTree::delete`. -/
inductive Op (K V : Type) where
  | ins (key : K) (value : V) : Op K V
  | del (key : K) : Op K V

/-- Run one operation. -/
def apply_op (t : Link K V) : Op K V → Option (Link K V)
  | .ins key value => insert t key value
  | .del key => delete t key

/-- Run a sequence of insert/delete operations, propagating a panic. -/
def apply_ops : Link K V → List (Op K V) → Option (Link K V)
  | t, [] => some t
  | t, op :: rest => (apply_op t op).bind fun t2 => apply_ops t2 rest

/-- Model-level insert-or-replace on a key-sorted association list. -/
def minsert : List (K × V) → K → V → List (K × V)
  | [], key, value => [(key, value)]
  | p :: rest, key, value =>
    if key < p.1 then (key, value) :: p :: rest
    else if p.1 < key then p :: minsert rest key value
    else (key, value) :: rest

/-- Model-level delete on an association list with distinct keys. -/
def mdelete (l : List (K × V)) (key : K) : List (K × V) :=
  l.filter fun p => decide (p.1 ≠ key)

/-- Model-level lookup on an association list. -/
def mfind (l : List (K × V)) (key : K) : Option (K × V) :=
  l.find? fun p => decide (p.1 = key)

/-- Does `x` satisfy the lower bound of a range? -/
def lowOkB (lo : Bound K) (x : K) : Bool :=
  match lo with
  | .unbounded => true
  | .included key => decide (key ≤ x)
  | .excluded key => decide (key < x)

/-- Does `x` satisfy the upper bound of a range (as `check_upper_bound`
tests it)? -/
def highOkB (hi : Bound K) (x : K) : Bool :=
  match hi with
  | .unbounded => true
  | .included key => decide (x ≤ key)
  | .excluded key => decide (x < key)

/-- Pure value replacement at `key`: same keys, heights and shape, only the
value stored at `key` changes. -/
def set_value : Link K V → K → V → Link K V
  | nil, _, _ => nil
  | node k v h l r, key, value =>
    if k < key then node k v h l (set_value r key value)
    else if key < k then node k v h (set_value l key value) r
    else node k value h l r

/-- Forget the values: the shape of the tree, with keys and cached heights. -/
def strip : Link K V → Link K Unit
  | nil => nil
  | node k _ h l r => node k () h (strip l) (strip r)

/-- The pending output of a range-iterator state, at the model level: the
stored pairs past `prev` (or satisfying the lower bound when nothing was
yielded yet) that satisfy the upper bound. -/
def emit (it : RangePairIter K V) : List (K × V) :=
  (pairs it.tree).filter fun q =>
    (match it.prev with
     | none => lowOkB it.from_ q.1
     | some pk => decide (pk < q.1)) && highOkB it.to_ q.1

end Link

namespace Link

variable {K V : Type} [LinearOrder K]

theorem pairs_nil : pairs (nil : Link K V) = [] := rfl

theorem pairs_node (k : K) (v : V) (h : Nat) (l r : Link K V) :
    pairs (node k v h l r) = pairs l ++ (k, v) :: pairs r := rfl

theorem in_order_eq_map (t : Link K V) : in_order t = (pairs t).map Prod.fst := by
  induction t with
  | nil => rfl
  | node k v h l r ihl ihr => simp [in_order, pairs, in_order_pairs, ihl, ihr]

theorem length_pairs (t : Link K V) : (pairs t).length = size t := by
  induction t with
  | nil => rfl
  | node k v h l r ihl ihr =>
    simp only [pairs] at ihl ihr ⊢
    simp [in_order_pairs, size, ihl, ihr]; omega

theorem all_keys_iff (p : K → Bool) (t : Link K V) :
    all_keys p t = true ↔ ∀ q ∈ pairs t, p q.1 = true := by
  induction t with
  | nil => simp [all_keys, pairs, in_order_pairs]
  | node k v h l r ihl ihr =>
    simp only [pairs] at ihl ihr ⊢
    simp only [all_keys, in_order_pairs, Bool.and_eq_true]
    constructor
    · rintro ⟨⟨h1, h2⟩, h3⟩ q hq
      rcases List.mem_append.1 hq with hq | hq
      · exact ihl.1 h2 q hq
      · rcases List.mem_cons.1 hq with rfl | hq
        · exact h1
        · exact ihr.1 h3 q hq
    · intro hall
      exact ⟨⟨hall (k, v) (List.mem_append.2 (Or.inr (List.mem_cons_self _ _))),
        ihl.2 fun q hq => hall q (List.mem_append.2 (Or.inl hq))⟩,
        ihr.2 fun q hq => hall q (List.mem_append.2 (Or.inr (List.mem_cons_of_mem _ hq)))⟩

theorem ordered_node_iff (k : K) (v : V) (h : Nat) (l r : Link K V) :
    ordered (node k v h l r) = true ↔
      (∀ q ∈ pairs l, q.1 < k) ∧ (∀ q ∈ pairs r, k < q.1) ∧
      ordered l = true ∧ ordered r = true := by
  simp [ordered, Bool.and_eq_true, all_keys_iff, and_assoc]

theorem ordered_pairwise (t : Link K V) (h : ordered t = true) :
    (pairs t).Pairwise fun a b => a.1 < b.1 := by
  induction t with
  | nil => simp [pairs, in_order_pairs]
  | node k v ht l r ihl ihr =>
    rw [ordered_node_iff] at h
    obtain ⟨hl, hr, ol, orr⟩ := h
    rw [pairs_node]
    refine List.pairwise_append.2 ⟨ihl ol, List.pairwise_cons.2 ⟨fun q hq => hr q hq, ihr orr⟩, ?_⟩
    intro a ha b hb
    rcases List.mem_cons.1 hb with rfl | hb
    · exact hl a ha
    · exact lt_trans (hl a ha) (hr b hb)

theorem heights_ok_node_iff (k : K) (v : V) (h : Nat) (l r : Link K V) :
    heights_ok (node k v h l r) = true ↔
      h = max (heightOf l) (heightOf r) + 1 ∧
      heights_ok l = true ∧ heights_ok r = true := by
  simp [heights_ok, Bool.and_eq_true, and_assoc]

theorem balancedB_node_iff (k : K) (v : V) (h : Nat) (l r : Link K V) :
    balancedB (node k v h l r) = true ↔
      (-1 ≤ diff_of_height l r ∧ diff_of_height l r ≤ 1) ∧
      balancedB l = true ∧ balancedB r = true := by
  simp [balancedB, Bool.and_eq_true, and_assoc]

theorem heightOf_eq_zero_iff (t : Link K V) (h : heights_ok t = true) :
    heightOf t = 0 ↔ t = nil := by
  cases t with
  | nil => simp [heightOf]
  | node k v ht l r =>
    rw [heights_ok_node_iff] at h
    simp [heightOf, h.1]

theorem minsert_append_left (xs ys : List (K × V)) (k0 : K) (v0 : V)
    (key : K) (value : V) (hlt : key < k0) :
    minsert (xs ++ (k0, v0) :: ys) key value =
      minsert xs key value ++ (k0, v0) :: ys := by
  induction xs with
  | nil => simp [minsert, hlt]
  | cons p rest ih =>
    by_cases h1 : key < p.1
    · simp [minsert, h1]
    · by_cases h2 : p.1 < key
      · simp [minsert, h1, h2, ih]
      · simp [minsert, h1, h2]

theorem minsert_append_right (xs ys : List (K × V)) (k0 : K) (v0 : V)
    (key : K) (value : V) (h0 : k0 < key) (hxs : ∀ p ∈ xs, p.1 < key) :
    minsert (xs ++ (k0, v0) :: ys) key value =
      xs ++ (k0, v0) :: minsert ys key value := by
  induction xs with
  | nil => simp [minsert, h0, not_lt_of_gt h0]
  | cons p rest ih =>
    have hp : p.1 < key := hxs p (by simp)
    have ih2 := ih fun q hq => hxs q (by simp [hq])
    simp [minsert, hp, not_lt_of_gt hp, ih2]

theorem minsert_append_eq (xs ys : List (K × V)) (v0 : V)
    (key : K) (value : V) (hxs : ∀ p ∈ xs, p.1 < key) :
    minsert (xs ++ (key, v0) :: ys) key value = xs ++ (key, value) :: ys := by
  induction xs with
  | nil => simp [minsert]
  | cons p rest ih =>
    have hp : p.1 < key := hxs p (by simp)
    have ih2 := ih fun q hq => hxs q (by simp [hq])
    simp [minsert, hp, not_lt_of_gt hp, ih2]

theorem mdelete_append_mid (xs ys : List (K × V)) (key : K) (v0 : V)
    (hxs : ∀ p ∈ xs, p.1 ≠ key) (hys : ∀ p ∈ ys, p.1 ≠ key) :
    mdelete (xs ++ (key, v0) :: ys) key = xs ++ ys := by
  simp only [mdelete, List.filter_append, List.filter_cons]
  rw [List.filter_eq_self.2 (by simpa using hxs), List.filter_eq_self.2 (by simpa using hys)]
  simp

theorem mdelete_append_right (xs ys : List (K × V)) (key k0 : K) (v0 : V)
    (hxs : ∀ p ∈ xs, p.1 ≠ key) (h0 : k0 ≠ key) :
    mdelete (xs ++ (k0, v0) :: ys) key = xs ++ (k0, v0) :: mdelete ys key := by
  simp only [mdelete, List.filter_append, List.filter_cons]
  rw [List.filter_eq_self.2 (by simpa using hxs)]
  simp [h0]

theorem mfind_minsert (xs : List (K × V)) (key : K) (value : V) :
    mfind (minsert xs key value) key = some (key, value) := by
  induction xs with
  | nil => simp [minsert, mfind]
  | cons p rest ih =>
    by_cases h1 : key < p.1
    · simp [minsert, h1, mfind]
    · by_cases h2 : p.1 < key
      · have : p.1 ≠ key := ne_of_lt h2
        simp [minsert, h1, h2, mfind, this] at ih ⊢
        exact ih
      · simp [minsert, h1, h2, mfind]

theorem mfind_mdelete (xs : List (K × V)) (key : K) :
    mfind (mdelete xs key) key = none := by
  rw [mfind, List.find?_eq_none]
  intro p hp
  have := List.of_mem_filter hp
  simpa using this

theorem find?_append_of_none {A : Type} {p : A → Bool} {xs ys : List A}
    (h : ∀ a ∈ xs, p a = false) :
    List.find? p (xs ++ ys) = List.find? p ys := by
  induction xs with
  | nil => rfl
  | cons a rest ih =>
    have ha : ¬ p a = true := by simp [h a (by simp)]
    rw [List.cons_append, List.find?_cons_of_neg _ ha,
      ih fun b hb => h b (by simp [hb])]

theorem find?_eq_head?_of_all {A : Type} {p : A → Bool} {xs : List A}
    (h : ∀ a ∈ xs, p a = true) : xs.find? p = xs.head? := by
  cases xs with
  | nil => rfl
  | cons a rest => simp [List.find?, h a (by simp)]

theorem sorted_mfind_of_mem {xs : List (K × V)}
    (hs : xs.Pairwise fun a b => a.1 < b.1) {k : K} {x : V} (hm : (k, x) ∈ xs) :
    mfind xs k = some (k, x) := by
  induction xs with
  | nil => simp at hm
  | cons p rest ih =>
    rcases List.mem_cons.1 hm with rfl | hm
    · simp [mfind]
    · have hp : p.1 < k := (List.pairwise_cons.1 hs).1 (k, x) hm
      have : p.1 ≠ k := ne_of_lt hp
      simp [mfind, this]
      exact ih (List.pairwise_cons.1 hs).2 hm

theorem node_min_pair_head (k : K) (v : V) (l : Link K V) (ys : List (K × V)) :
    (pairs l ++ (k, v) :: ys).head? = some (node_min_pair k v l) := by
  induction l generalizing k v ys with
  | nil => simp [pairs, in_order_pairs, node_min_pair]
  | node lk lv lh ll lr ihl ihr =>
    simp only [pairs, in_order_pairs, node_min_pair] at *
    rw [List.append_assoc, List.cons_append]
    exact ihl lk lv _

theorem node_max_pair_head (k : K) (v : V) (r : Link K V) (ys : List (K × V)) :
    ((pairs r).reverse ++ (k, v) :: ys).head? = some (node_max_pair k v r) := by
  induction r generalizing k v ys with
  | nil => simp [pairs, in_order_pairs, node_max_pair]
  | node rk rv rh rl rr ihl ihr =>
    simp only [pairs, in_order_pairs, node_max_pair] at *
    rw [List.reverse_append, List.reverse_cons, List.append_assoc, List.append_assoc,
      List.cons_append, List.nil_append]
    exact ihr rk rv _

theorem heightOf_nil : heightOf (nil : Link K V) = 0 := rfl

theorem heightOf_node (k : K) (v : V) (h : Nat) (l r : Link K V) :
    heightOf (node k v h l r) = h := rfl

theorem left_balance_spec (k : K) (v : V) (l r : Link K V)
    (hl : heights_ok l = true) (hr : heights_ok r = true)
    (bl : balancedB l = true) (br : balancedB r = true)
    (ol : ordered l = true) (oR : ordered r = true)
    (al : ∀ q ∈ pairs l, q.1 < k) (ar : ∀ q ∈ pairs r, k < q.1)
    (hdiff : heightOf l = heightOf r + 2) :
    ∃ t, left_balance k v l r = some t ∧
      heights_ok t = true ∧ balancedB t = true ∧ ordered t = true ∧
      pairs t = pairs l ++ (k, v) :: pairs r ∧
      heightOf l ≤ heightOf t ∧ heightOf t ≤ heightOf l + 1 := by
  cases l with
  | nil => simp [heightOf_nil] at hdiff
  | node lk lv lh ll lr2 =>
    rw [heights_ok_node_iff] at hl
    obtain ⟨lheq, okll, oklr⟩ := hl
    rw [balancedB_node_iff] at bl
    obtain ⟨⟨bl1, bl2⟩, bll, blr⟩ := bl
    rw [ordered_node_iff] at ol
    obtain ⟨pll, plr, oll, olr⟩ := ol
    simp only [diff_of_height, heightOf_node] at bl1 bl2 hdiff
    have hlk : lk < k := al (lk, lv) (by simp [pairs_node])
    by_cases hc : heightOf ll < heightOf lr2
    · -- left child is right-heavy: double rotation (left-rotate child, right-rotate self)
      cases lr2 with
      | nil => simp [heightOf_nil] at hc
      | node lrk lrv lrh lrl lrr =>
        rw [heights_ok_node_iff] at oklr
        obtain ⟨lrheq, oklrl, oklrr⟩ := oklr
        rw [balancedB_node_iff] at blr
        obtain ⟨⟨blr1, blr2⟩, blrl, blrr⟩ := blr
        rw [ordered_node_iff] at olr
        obtain ⟨plrl, plrr, olrl, olrr⟩ := olr
        simp only [diff_of_height, heightOf_node] at blr1 blr2 bl1 bl2 lheq
        rw [heightOf_node] at hc
        have hlrk1 : lk < lrk := plr (lrk, lrv) (by simp [pairs_node])
        have hlrk2 : lrk < k := al (lrk, lrv) (by simp [pairs_node])
        simp only [left_balance, left_rotate, right_rotate]
        rw [if_pos (by rw [heightOf_node]; exact hc)]
        refine ⟨_, rfl, ?_, ?_, ?_, ?_, ?_, ?_⟩
        · simp [heights_ok_node_iff, heightOf_node, okll, oklrl, oklrr, hr]
        · simp only [balancedB_node_iff, diff_of_height, heightOf_node]
          refine ⟨⟨?_, ?_⟩, ⟨⟨?_, ?_⟩, bll, blrl⟩, ⟨⟨?_, ?_⟩, blrr, br⟩⟩ <;> omega
        · rw [ordered_node_iff]
          refine ⟨?_, ?_, ?_, ?_⟩
          · intro q hq
            rw [pairs_node] at hq
            rcases List.mem_append.1 hq with hq | hq
            · exact lt_trans (pll q hq) hlrk1
            · rcases List.mem_cons.1 hq with rfl | hq
              · exact hlrk1
              · exact plrl q hq
          · intro q hq
            rw [pairs_node] at hq
            rcases List.mem_append.1 hq with hq | hq
            · exact plrr q hq
            · rcases List.mem_cons.1 hq with rfl | hq
              · exact hlrk2
              · exact lt_trans hlrk2 (ar q hq)
          · rw [ordered_node_iff]
            exact ⟨pll, fun q hq => plr q (by simp [pairs_node, hq]), oll, olrl⟩
          · rw [ordered_node_iff]
            refine ⟨fun q hq => al q (by simp [pairs_node, hq]), ar, olrr, oR⟩
        · simp [pairs, in_order_pairs]
        · simp only [heightOf_node]; omega
        · simp only [heightOf_node]; omega
    · -- single right rotation
      simp only [left_balance, right_rotate]
      rw [if_neg hc]
      refine ⟨_, rfl, ?_, ?_, ?_, ?_, ?_, ?_⟩
      · simp [heights_ok_node_iff, heightOf_node, okll, oklr, hr]
      · simp only [balancedB_node_iff, diff_of_height, heightOf_node]
        refine ⟨⟨?_, ?_⟩, bll, ⟨⟨?_, ?_⟩, blr, br⟩⟩ <;> omega
      · rw [ordered_node_iff]
        refine ⟨pll, ?_, oll, ?_⟩
        · intro q hq
          rw [pairs_node] at hq
          rcases List.mem_append.1 hq with hq | hq
          · exact plr q hq
          · rcases List.mem_cons.1 hq with rfl | hq
            · exact hlk
            · exact lt_trans hlk (ar q hq)
        · rw [ordered_node_iff]
          exact ⟨fun q hq => al q (by simp [pairs_node, hq]), ar, olr, oR⟩
      · simp [pairs, in_order_pairs]
      · simp only [heightOf_node]; omega
      · simp only [heightOf_node]; omega

theorem right_balance_spec (k : K) (v : V) (l r : Link K V)
    (hl : heights_ok l = true) (hr : heights_ok r = true)
    (bl : balancedB l = true) (br : balancedB r = true)
    (ol : ordered l = true) (oR : ordered r = true)
    (al : ∀ q ∈ pairs l, q.1 < k) (ar : ∀ q ∈ pairs r, k < q.1)
    (hdiff : heightOf r = heightOf l + 2) :
    ∃ t, right_balance k v l r = some t ∧
      heights_ok t = true ∧ balancedB t = true ∧ ordered t = true ∧
      pairs t = pairs l ++ (k, v) :: pairs r ∧
      heightOf r ≤ heightOf t ∧ heightOf t ≤ heightOf r + 1 := by
  cases r with
  | nil => simp [heightOf_nil] at hdiff
  | node rk rv rh rl rr2 =>
    rw [heights_ok_node_iff] at hr
    obtain ⟨rheq, okrl, okrr⟩ := hr
    rw [balancedB_node_iff] at br
    obtain ⟨⟨br1, br2⟩, brl, brr⟩ := br
    rw [ordered_node_iff] at oR
    obtain ⟨prl, prr, orl, orr⟩ := oR
    simp only [diff_of_height, heightOf_node] at br1 br2 hdiff
    have hrk : k < rk := ar (rk, rv) (by simp [pairs_node])
    by_cases hc : heightOf rl > heightOf rr2
    · -- right child is left-heavy: double rotation (right-rotate child, left-rotate self)
      cases rl with
      | nil => simp [heightOf_nil] at hc
      | node rlk rlv rlh rll rlr =>
        rw [heights_ok_node_iff] at okrl
        obtain ⟨rlheq, okrll, okrlr⟩ := okrl
        rw [balancedB_node_iff] at brl
        obtain ⟨⟨brl1, brl2⟩, brll, brlr⟩ := brl
        rw [ordered_node_iff] at orl
        obtain ⟨prll, prlr, orll, orlr⟩ := orl
        simp only [diff_of_height, heightOf_node] at brl1 brl2 br1 br2 rheq
        rw [heightOf_node] at hc
        have hrlk1 : rlk < rk := prl (rlk, rlv) (by simp [pairs_node])
        have hrlk2 : k < rlk := ar (rlk, rlv) (by simp [pairs_node])
        simp only [right_balance, right_rotate, left_rotate]
        rw [if_pos (by rw [heightOf_node]; exact hc)]
        refine ⟨_, rfl, ?_, ?_, ?_, ?_, ?_, ?_⟩
        · simp [heights_ok_node_iff, heightOf_node, okrll, okrlr, okrr, hl]
        · simp only [balancedB_node_iff, diff_of_height, heightOf_node]
          refine ⟨⟨?_, ?_⟩, ⟨⟨?_, ?_⟩, bl, brll⟩, ⟨⟨?_, ?_⟩, brlr, brr⟩⟩ <;> omega
        · rw [ordered_node_iff]
          refine ⟨?_, ?_, ?_, ?_⟩
          · intro q hq
            rw [pairs_node] at hq
            rcases List.mem_append.1 hq with hq | hq
            · exact lt_trans (al q hq) hrlk2
            · rcases List.mem_cons.1 hq with rfl | hq
              · exact hrlk2
              · exact prll q hq
          · intro q hq
            rw [pairs_node] at hq
            rcases List.mem_append.1 hq with hq | hq
            · exact prlr q hq
            · rcases List.mem_cons.1 hq with rfl | hq
              · exact hrlk1
              · exact lt_trans hrlk1 (prr q hq)
          · rw [ordered_node_iff]
            exact ⟨al, fun q hq => ar q (by simp [pairs_node, hq]), ol, orll⟩
          · rw [ordered_node_iff]
            refine ⟨fun q hq => prl q (by simp [pairs_node, hq]), prr, orlr, orr⟩
        · simp [pairs, in_order_pairs]
        · simp only [heightOf_node]; omega
        · simp only [heightOf_node]; omega
    · -- single left rotation
      simp only [right_balance, left_rotate]
      rw [if_neg hc]
      refine ⟨_, rfl, ?_, ?_, ?_, ?_, ?_, ?_⟩
      · simp [heights_ok_node_iff, heightOf_node, okrl, okrr, hl]
      · simp only [balancedB_node_iff, diff_of_height, heightOf_node]
        refine ⟨⟨?_, ?_⟩, ⟨⟨?_, ?_⟩, bl, brl⟩, brr⟩ <;> omega
      · rw [ordered_node_iff]
        refine ⟨?_, prr, ?_, orr⟩
        · intro q hq
          rw [pairs_node] at hq
          rcases List.mem_append.1 hq with hq | hq
          · exact lt_trans (al q hq) hrk
          · rcases List.mem_cons.1 hq with rfl | hq
            · exact hrk
            · exact prl q hq
        · rw [ordered_node_iff]
          exact ⟨al, fun q hq => ar q (by simp [pairs_node, hq]), ol, orl⟩
      · simp [pairs, in_order_pairs]
      · simp only [heightOf_node]; omega
      · simp only [heightOf_node]; omega

theorem update_node_spec (k : K) (v : V) (l r : Link K V)
    (hl : heights_ok l = true) (hr : heights_ok r = true)
    (bl : balancedB l = true) (br : balancedB r = true)
    (ol : ordered l = true) (oR : ordered r = true)
    (al : ∀ q ∈ pairs l, q.1 < k) (ar : ∀ q ∈ pairs r, k < q.1)
    (hd : (heightOf l : Int) - heightOf r ≤ 2 ∧ (heightOf r : Int) - heightOf l ≤ 2) :
    ∃ t, update_node k v l r = some t ∧
      heights_ok t = true ∧ balancedB t = true ∧ ordered t = true ∧
      pairs t = pairs l ++ (k, v) :: pairs r ∧
      max (heightOf l) (heightOf r) ≤ heightOf t ∧
      heightOf t ≤ max (heightOf l) (heightOf r) + 1 ∧
      ((heightOf l : Int) - heightOf r ≤ 1 ∧ (heightOf r : Int) - heightOf l ≤ 1 →
        heightOf t = max (heightOf l) (heightOf r) + 1) := by
  unfold update_node rotate_if_necessary
  simp only [diff_of_height]
  split_ifs with h1 h2 h3
  · refine ⟨_, rfl, ?_, ?_, ?_, ?_, ?_, ?_, ?_⟩
    · simp [heights_ok_node_iff, hl, hr]
    · rw [balancedB_node_iff]
      exact ⟨⟨by simpa [diff_of_height] using h1.1, by simpa [diff_of_height] using h1.2⟩,
        bl, br⟩
    · rw [ordered_node_iff]; exact ⟨al, ar, ol, oR⟩
    · exact pairs_node _ _ _ _ _
    · simp [heightOf_node]
    · simp [heightOf_node]
    · intro _; simp [heightOf_node]
  · obtain ⟨t, ht, okt, bt, ot, pt, b1, b2⟩ :=
      right_balance_spec k v l r hl hr bl br ol oR al ar (by omega)
    exact ⟨t, ht, okt, bt, ot, pt, by omega, by omega, fun hcon => by omega⟩
  · obtain ⟨t, ht, okt, bt, ot, pt, b1, b2⟩ :=
      left_balance_spec k v l r hl hr bl br ol oR al ar (by omega)
    exact ⟨t, ht, okt, bt, ot, pt, by omega, by omega, fun hcon => by omega⟩
  · exfalso; omega

theorem mem_minsert {xs : List (K × V)} {key : K} {value : V} {q : K × V}
    (h : q ∈ minsert xs key value) : q ∈ xs ∨ q = (key, value) := by
  induction xs with
  | nil => simp [minsert] at h; simp [h]
  | cons p rest ih =>
    by_cases h1 : key < p.1
    · simp [minsert, h1] at h
      rcases h with rfl | h | h <;> simp [*]
    · by_cases h2 : p.1 < key
      · simp [minsert, h1, h2] at h
        rcases h with rfl | h
        · simp
        · rcases ih h with h | h <;> simp [h]
      · simp [minsert, h1, h2] at h
        rcases h with rfl | h <;> simp [*]

theorem insert_spec (t : Link K V) (key : K) (value : V)
    (ht : heights_ok t = true) (ot : ordered t = true) (bt : balancedB t = true) :
    ∃ t2, insert t key value = some t2 ∧
      heights_ok t2 = true ∧ ordered t2 = true ∧ balancedB t2 = true ∧
      pairs t2 = minsert (pairs t) key value ∧
      heightOf t ≤ heightOf t2 ∧ heightOf t2 ≤ heightOf t + 1 := by
  induction t with
  | nil =>
    refine ⟨_, rfl, ?_, ?_, ?_, ?_, ?_, ?_⟩
    · simp [heights_ok_node_iff, heights_ok, heightOf_nil]
    · simp [ordered_node_iff, pairs_nil, ordered, all_keys]
    · simp [balancedB_node_iff, diff_of_height, heightOf_nil, balancedB]
    · simp [pairs_node, pairs_nil, minsert]
    · simp [heightOf_nil, heightOf_node]
    · simp [heightOf_nil, heightOf_node]
  | node k v h l r ihl ihr =>
    rw [heights_ok_node_iff] at ht
    obtain ⟨heq, okl, okr⟩ := ht
    rw [balancedB_node_iff] at bt
    obtain ⟨⟨b1, b2⟩, bl, br⟩ := bt
    rw [ordered_node_iff] at ot
    obtain ⟨pll, prr, ol, oR⟩ := ot
    simp only [diff_of_height, heightOf_node] at b1 b2
    by_cases hlt : key < k
    · obtain ⟨l2, hl2, okl2, ol2, bl2, pl2, g1, g2⟩ := ihl okl ol bl
      have al2 : ∀ q ∈ pairs l2, q.1 < k := by
        intro q hq
        rw [pl2] at hq
        rcases mem_minsert hq with hq | rfl
        · exact pll q hq
        · exact hlt
      obtain ⟨t2, ht2, okt2, bt2, ot2, pt2, bd1, bd2, bd3⟩ :=
        update_node_spec k v l2 r okl2 okr bl2 br ol2 oR al2 prr (by omega)
      have hins : insert (node k v h l r) key value = update_node k v l2 r := by
        simp only [insert, if_pos hlt, hl2, Option.some_bind]
      refine ⟨t2, by rw [hins, ht2], okt2, ot2, bt2, ?_, ?_, ?_⟩
      · rw [pt2, pl2, pairs_node, minsert_append_left _ _ _ _ _ _ hlt]
      · rw [heightOf_node]
        by_cases hc : (heightOf l2 : Int) - heightOf r ≤ 1 ∧
            (heightOf r : Int) - heightOf l2 ≤ 1
        · have := bd3 hc; omega
        · omega
      · rw [heightOf_node]
        by_cases hc : (heightOf l2 : Int) - heightOf r ≤ 1 ∧
            (heightOf r : Int) - heightOf l2 ≤ 1
        · have := bd3 hc; omega
        · omega
    · by_cases hgt : k < key
      · obtain ⟨r2, hr2, okr2, or2, br2, pr2, g1, g2⟩ := ihr okr oR br
        have ar2 : ∀ q ∈ pairs r2, k < q.1 := by
          intro q hq
          rw [pr2] at hq
          rcases mem_minsert hq with hq | rfl
          · exact prr q hq
          · exact hgt
        obtain ⟨t2, ht2, okt2, bt2, ot2, pt2, bd1, bd2, bd3⟩ :=
          update_node_spec k v l r2 okl okr2 bl br2 ol or2 pll ar2 (by omega)
        have hins : insert (node k v h l r) key value = update_node k v l r2 := by
          simp only [insert, if_neg hlt, if_pos hgt, hr2, Option.some_bind]
        refine ⟨t2, by rw [hins, ht2], okt2, ot2, bt2, ?_, ?_, ?_⟩
        · rw [pt2, pr2, pairs_node,
            minsert_append_right _ _ _ _ _ _ hgt fun p hp => lt_trans (pll p hp) hgt]
        · rw [heightOf_node]
          by_cases hc : (heightOf l : Int) - heightOf r2 ≤ 1 ∧
              (heightOf r2 : Int) - heightOf l ≤ 1
          · have := bd3 hc; omega
          · omega
        · rw [heightOf_node]
          by_cases hc : (heightOf l : Int) - heightOf r2 ≤ 1 ∧
              (heightOf r2 : Int) - heightOf l ≤ 1
          · have := bd3 hc; omega
          · omega
      · have hk : k = key := le_antisymm (not_lt.1 hlt) (not_lt.1 hgt)
        subst hk
        refine ⟨node k value h l r, by simp [insert, hlt, hgt], ?_, ?_, ?_, ?_, ?_, ?_⟩
        · rw [heights_ok_node_iff]; exact ⟨heq, okl, okr⟩
        · rw [ordered_node_iff]; exact ⟨pll, prr, ol, oR⟩
        · rw [balancedB_node_iff]
          exact ⟨⟨by simpa [diff_of_height, heightOf_node] using b1,
            by simpa [diff_of_height, heightOf_node] using b2⟩, bl, br⟩
        · rw [pairs_node, pairs_node, minsert_append_eq _ _ _ _ _ pll]
        · simp [heightOf_node]
        · simp [heightOf_node]

theorem mdelete_append_left (xs ys : List (K × V)) (key k0 : K) (v0 : V)
    (hys : ∀ p ∈ ys, p.1 ≠ key) (h0 : k0 ≠ key) :
    mdelete (xs ++ (k0, v0) :: ys) key = mdelete xs key ++ (k0, v0) :: ys := by
  have hy : List.filter (fun p => decide (p.1 ≠ key)) ys = ys :=
    List.filter_eq_self.2 (by simpa using hys)
  simp only [mdelete, List.filter_append, List.filter_cons, hy]
  simp [h0]

theorem remove_min_spec (k : K) (v : V) (h : Nat) (l : Link K V) (r : Link K V)
    (okl : heights_ok l = true) (okr : heights_ok r = true)
    (bl : balancedB l = true) (br : balancedB r = true)
    (ol : ordered l = true) (oR : ordered r = true)
    (al : ∀ q ∈ pairs l, q.1 < k) (ar : ∀ q ∈ pairs r, k < q.1)
    (heq : h = max (heightOf l) (heightOf r) + 1)
    (hb : (heightOf l : Int) - heightOf r ≤ 1 ∧ (heightOf r : Int) - heightOf l ≤ 1) :
    ∃ rem mk2 mv2 mh2, remove_min k v h l r = some (rem, mk2, mv2, mh2) ∧
      heights_ok rem = true ∧ ordered rem = true ∧ balancedB rem = true ∧
      pairs l ++ (k, v) :: pairs r = (mk2, mv2) :: pairs rem ∧
      (∀ q ∈ pairs rem, mk2 < q.1) ∧
      heightOf rem ≤ h ∧ h ≤ heightOf rem + 1 := by
  induction l generalizing k v h r with
  | nil =>
    simp only [heightOf_nil] at heq
    refine ⟨r, k, v, h, by simp [remove_min], okr, oR, br, by simp [pairs_nil], ar, ?_, ?_⟩
    · omega
    · omega
  | node lk lv lh ll lr ihl _ =>
    rw [heights_ok_node_iff] at okl
    obtain ⟨lheq, okll, oklr⟩ := okl
    rw [balancedB_node_iff] at bl
    obtain ⟨⟨bl1, bl2⟩, bll, blr⟩ := bl
    rw [ordered_node_iff] at ol
    obtain ⟨pll, plr, oll, olr⟩ := ol
    simp only [diff_of_height, heightOf_node] at bl1 bl2
    simp only [heightOf_node] at heq hb
    obtain ⟨rem1, mk2, mv2, mh2, hrm, okrem1, orem1, brem1, prem1, minb1, g1, g2⟩ :=
      ihl lk lv lh lr okll oklr bll blr oll olr pll plr lheq ⟨by omega, by omega⟩
    have plEq : pairs (node lk lv lh ll lr) = (mk2, mv2) :: pairs rem1 := by
      rw [pairs_node]; exact prem1
    have aRem : ∀ q ∈ pairs rem1, q.1 < k := fun q hq =>
      al q (by rw [plEq]; exact List.mem_cons_of_mem _ hq)
    have mk2k : mk2 < k := al (mk2, mv2) (by rw [plEq]; simp)
    obtain ⟨t2, hupd, okt2, bt2, ot2, pt2, bd1, bd2, bd3⟩ :=
      update_node_spec k v rem1 r okrem1 okr brem1 br orem1 oR aRem ar (by omega)
    refine ⟨t2, mk2, mv2, mh2, by simp [remove_min, hrm, hupd], okt2, ot2, bt2, ?_, ?_, ?_, ?_⟩
    · rw [plEq, pt2]; simp
    · intro q hq
      rw [pt2] at hq
      rcases List.mem_append.1 hq with hq | hq
      · exact minb1 q hq
      · rcases List.mem_cons.1 hq with rfl | hq
        · exact mk2k
        · exact lt_trans mk2k (ar q hq)
    · by_cases hc : (heightOf rem1 : Int) - heightOf r ≤ 1 ∧
          (heightOf r : Int) - heightOf rem1 ≤ 1
      · have := bd3 hc; omega
      · omega
    · by_cases hc : (heightOf rem1 : Int) - heightOf r ≤ 1 ∧
          (heightOf r : Int) - heightOf rem1 ≤ 1
      · have := bd3 hc; omega
      · omega

theorem delete_root_spec (k : K) (v : V) (l r : Link K V)
    (okl : heights_ok l = true) (okr : heights_ok r = true)
    (bl : balancedB l = true) (br : balancedB r = true)
    (ol : ordered l = true) (oR : ordered r = true)
    (al : ∀ q ∈ pairs l, q.1 < k) (ar : ∀ q ∈ pairs r, k < q.1)
    (hb : (heightOf l : Int) - heightOf r ≤ 1 ∧ (heightOf r : Int) - heightOf l ≤ 1) :
    ∃ t, delete_root l r = some t ∧
      heights_ok t = true ∧ ordered t = true ∧ balancedB t = true ∧
      pairs t = pairs l ++ pairs r ∧
      max (heightOf l) (heightOf r) ≤ heightOf t ∧
      heightOf t ≤ max (heightOf l) (heightOf r) + 1 := by
  cases l with
  | nil =>
    cases r with
    | nil =>
      exact ⟨nil, rfl, rfl, rfl, rfl, by simp [pairs_nil], by simp [heightOf_nil], by
        simp [heightOf_nil]⟩
    | node rk rv rh rl rr =>
      exact ⟨node rk rv rh rl rr, rfl, okr, oR, br, by simp [pairs_nil],
        by simp [heightOf_nil], by simp [heightOf_nil]⟩
  | node lk lv lh ll lr =>
    cases r with
    | nil =>
      exact ⟨node lk lv lh ll lr, rfl, okl, ol, bl, by simp [pairs_nil],
        by simp [heightOf_nil], by simp [heightOf_nil]⟩
    | node rk rv rh rl rr =>
      rw [heights_ok_node_iff] at okr
      obtain ⟨rheq, okrl, okrr⟩ := okr
      rw [balancedB_node_iff] at br
      obtain ⟨⟨br1, br2⟩, brl, brr⟩ := br
      rw [ordered_node_iff] at oR
      obtain ⟨prl, prr, orl, orr⟩ := oR
      simp only [diff_of_height, heightOf_node] at br1 br2 hb
      obtain ⟨rem, mk2, mv2, mh2, hrm, okrem, orem, brem, prem, minb, g1, g2⟩ :=
        remove_min_spec rk rv rh rl rr okrl okrr brl brr orl orr prl prr rheq
          ⟨by omega, by omega⟩
      have prEq : pairs (node rk rv rh rl rr) = (mk2, mv2) :: pairs rem := by
        rw [pairs_node]; exact prem
      have hkmk : k < mk2 := ar (mk2, mv2) (by rw [prEq]; simp)
      have aL : ∀ q ∈ pairs (node lk lv lh ll lr), q.1 < mk2 := fun q hq =>
        lt_trans (al q hq) hkmk
      obtain ⟨t2, hupd, okt2, bt2, ot2, pt2, bd1, bd2, bd3⟩ :=
        update_node_spec mk2 mv2 (node lk lv lh ll lr) rem okl okrem bl brem ol orem
          aL minb (by simp only [heightOf_node] at *; omega)
      refine ⟨t2, by simp [delete_root, combine_two_subtrees, hrm, hupd], okt2, ot2, bt2,
        ?_, ?_, ?_⟩
      · rw [pt2, prEq]
      · by_cases hc : (heightOf (node lk lv lh ll lr) : Int) - heightOf rem ≤ 1 ∧
            (heightOf rem : Int) - heightOf (node lk lv lh ll lr) ≤ 1
        · have := bd3 hc; simp only [heightOf_node] at *; omega
        · simp only [heightOf_node] at *; omega
      · by_cases hc : (heightOf (node lk lv lh ll lr) : Int) - heightOf rem ≤ 1 ∧
            (heightOf rem : Int) - heightOf (node lk lv lh ll lr) ≤ 1
        · have := bd3 hc; simp only [heightOf_node] at *; omega
        · simp only [heightOf_node] at *; omega

theorem delete_spec (t : Link K V) (key : K)
    (ht : heights_ok t = true) (ot : ordered t = true) (bt : balancedB t = true) :
    ∃ t2, delete t key = some t2 ∧
      heights_ok t2 = true ∧ ordered t2 = true ∧ balancedB t2 = true ∧
      pairs t2 = mdelete (pairs t) key ∧
      heightOf t2 ≤ heightOf t ∧ heightOf t ≤ heightOf t2 + 1 := by
  induction t with
  | nil =>
    exact ⟨nil, rfl, rfl, rfl, rfl, by simp [pairs_nil, mdelete], le_refl _, by simp⟩
  | node k v h l r ihl ihr =>
    rw [heights_ok_node_iff] at ht
    obtain ⟨heq, okl, okr⟩ := ht
    rw [balancedB_node_iff] at bt
    obtain ⟨⟨b1, b2⟩, bl, br⟩ := bt
    rw [ordered_node_iff] at ot
    obtain ⟨pll, prr, ol, oR⟩ := ot
    simp only [diff_of_height, heightOf_node] at b1 b2
    by_cases hgt : k < key
    · -- descend right
      cases r with
      | nil =>
        refine ⟨node k v h l nil, by rw [delete.eq_def]; simp [hgt], ?_, ?_, ?_, ?_,
          le_refl _, by simp⟩
        · rw [heights_ok_node_iff]; exact ⟨heq, okl, okr⟩
        · rw [ordered_node_iff]; exact ⟨pll, prr, ol, oR⟩
        · rw [balancedB_node_iff]
          exact ⟨⟨by simpa [diff_of_height, heightOf_node] using b1,
            by simpa [diff_of_height, heightOf_node] using b2⟩, bl, br⟩
        · rw [pairs_node, mdelete, List.filter_eq_self.2]
          intro p hp
          rcases List.mem_append.1 hp with hp | hp
          · simpa using ne_of_lt (lt_trans (pll p hp) hgt)
          · rcases List.mem_cons.1 hp with rfl | hp
            · simpa using ne_of_lt hgt
            · simp [pairs_nil] at hp
      | node rk rv rh rl rr =>
        obtain ⟨r2, hr2, okr2, or2, br2, pr2, g1, g2⟩ := ihr okr oR br
        have ar2 : ∀ q ∈ pairs r2, k < q.1 := by
          intro q hq
          rw [pr2] at hq
          exact prr q (List.mem_of_mem_filter hq)
        obtain ⟨t2, ht2, okt2, bt2, ot2, pt2, bd1, bd2, bd3⟩ :=
          update_node_spec k v l r2 okl okr2 bl br2 ol or2 pll ar2 (by omega)
        have hdel : delete (node k v h l (node rk rv rh rl rr)) key =
            update_node k v l r2 := by
          rw [delete.eq_def]; simp [hgt, hr2]
        refine ⟨t2, by rw [hdel, ht2], okt2, ot2, bt2, ?_, ?_, ?_⟩
        · rw [pt2, pr2, pairs_node k v h l (node rk rv rh rl rr),
            mdelete_append_right (pairs l) (pairs (node rk rv rh rl rr)) key k v
              (fun p hp => ne_of_lt (lt_trans (pll p hp) hgt)) (ne_of_lt hgt)]
        · rw [heightOf_node]
          by_cases hc : (heightOf l : Int) - heightOf r2 ≤ 1 ∧
              (heightOf r2 : Int) - heightOf l ≤ 1
          · have := bd3 hc; omega
          · omega
        · rw [heightOf_node]
          by_cases hc : (heightOf l : Int) - heightOf r2 ≤ 1 ∧
              (heightOf r2 : Int) - heightOf l ≤ 1
          · have := bd3 hc; omega
          · omega
    · by_cases hlt : key < k
      · -- descend left
        cases l with
        | nil =>
          refine ⟨node k v h nil r, by rw [delete.eq_def]; simp [hgt, hlt], ?_, ?_, ?_, ?_,
            le_refl _, by simp⟩
          · rw [heights_ok_node_iff]; exact ⟨heq, okl, okr⟩
          · rw [ordered_node_iff]; exact ⟨pll, prr, ol, oR⟩
          · rw [balancedB_node_iff]
            exact ⟨⟨by simpa [diff_of_height, heightOf_node] using b1,
              by simpa [diff_of_height, heightOf_node] using b2⟩, bl, br⟩
          · rw [pairs_node, mdelete, List.filter_eq_self.2]
            intro p hp
            rcases List.mem_append.1 hp with hp | hp
            · simp [pairs_nil] at hp
            · rcases List.mem_cons.1 hp with rfl | hp
              · simpa using (ne_of_lt hlt).symm
              · simpa using (ne_of_lt (lt_trans hlt (prr p hp))).symm
        | node lk lv lh ll lr =>
          obtain ⟨l2, hl2, okl2, ol2, bl2, pl2, g1, g2⟩ := ihl okl ol bl
          have al2 : ∀ q ∈ pairs l2, q.1 < k := by
            intro q hq
            rw [pl2] at hq
            exact pll q (List.mem_of_mem_filter hq)
          obtain ⟨t2, ht2, okt2, bt2, ot2, pt2, bd1, bd2, bd3⟩ :=
            update_node_spec k v l2 r okl2 okr bl2 br ol2 oR al2 prr (by omega)
          have hdel : delete (node k v h (node lk lv lh ll lr) r) key =
              update_node k v l2 r := by
            rw [delete.eq_def]; simp [hgt, hlt, hl2]
          refine ⟨t2, by rw [hdel, ht2], okt2, ot2, bt2, ?_, ?_, ?_⟩
          · rw [pt2, pl2, pairs_node k v h (node lk lv lh ll lr) r,
              mdelete_append_left (pairs (node lk lv lh ll lr)) (pairs r) key k v
                (fun p hp => (ne_of_lt (lt_trans hlt (prr p hp))).symm)
                ((ne_of_lt hlt).symm)]
          · rw [heightOf_node]
            by_cases hc : (heightOf l2 : Int) - heightOf r ≤ 1 ∧
                (heightOf r : Int) - heightOf l2 ≤ 1
            · have := bd3 hc; omega
            · omega
          · rw [heightOf_node]
            by_cases hc : (heightOf l2 : Int) - heightOf r ≤ 1 ∧
                (heightOf r : Int) - heightOf l2 ≤ 1
            · have := bd3 hc; omega
            · omega
      · -- exact match: delete the root of this subtree
        have hk : k = key := le_antisymm (not_lt.1 hlt) (not_lt.1 hgt)
        subst hk
        obtain ⟨t2, ht2, okt2, ot2, bt2, pt2, bd1, bd2⟩ :=
          delete_root_spec k v l r okl okr bl br ol oR pll prr ⟨by omega, by omega⟩
        have hdel : delete (node k v h l r) k = delete_root l r := by
          rw [delete.eq_def]; simp
        refine ⟨t2, by rw [hdel, ht2], okt2, ot2, bt2, ?_, ?_, ?_⟩
        · rw [pt2, pairs_node k v h l r,
            mdelete_append_mid (pairs l) (pairs r) k v (fun p hp => ne_of_lt (pll p hp))
              (fun p hp => (ne_of_lt (prr p hp)).symm)]
        · rw [heightOf_node]; omega
        · rw [heightOf_node]; omega

theorem AvlB_iff (t : Link K V) :
    AvlB t = true ↔ heights_ok t = true ∧ ordered t = true ∧ balancedB t = true := by
  simp [AvlB, Bool.and_eq_true, and_assoc]

theorem apply_op_spec (t : Link K V) (op : Op K V) (ht : AvlB t = true) :
    ∃ t2, apply_op t op = some t2 ∧ AvlB t2 = true := by
  rw [AvlB_iff] at ht
  obtain ⟨h1, h2, h3⟩ := ht
  cases op with
  | ins key value =>
    obtain ⟨t2, he, a, b, c, _⟩ := insert_spec t key value h1 h2 h3
    exact ⟨t2, he, (AvlB_iff t2).2 ⟨a, b, c⟩⟩
  | del key =>
    obtain ⟨t2, he, a, b, c, _⟩ := delete_spec t key h1 h2 h3
    exact ⟨t2, he, (AvlB_iff t2).2 ⟨a, b, c⟩⟩

theorem apply_ops_spec (ops : List (Op K V)) (t : Link K V) (ht : AvlB t = true) :
    ∃ t2, apply_ops t ops = some t2 ∧ AvlB t2 = true := by
  induction ops generalizing t with
  | nil => exact ⟨t, rfl, ht⟩
  | cons op rest ih =>
    obtain ⟨t1, h1, a1⟩ := apply_op_spec t op ht
    obtain ⟨t2, h2, a2⟩ := ih t1 a1
    exact ⟨t2, by simp [apply_ops, h1, h2], a2⟩

theorem is_avl_node_of (k : K) (l r : Link K V)
    (hl : ∀ q ∈ pairs l, q.1 < k) (hr : ∀ q ∈ pairs r, k < q.1)
    (hb1 : -1 ≤ diff_of_height l r) (hb2 : diff_of_height l r ≤ 1) :
    is_avl_node k l r = true := by
  have hd : ¬(diff_of_height l r > 1 ∨ diff_of_height l r < -1) := by
    push_neg
    exact ⟨hb2, hb1⟩
  cases l with
  | nil =>
    cases r with
    | nil => rfl
    | node rk rv rh rl rr =>
      have h1 : k < rk := hr (rk, rv) (by simp [pairs_node])
      simp [is_avl_node, h1, hd]
  | node lk lv lh ll lr =>
    have h1 : lk < k := hl (lk, lv) (by simp [pairs_node])
    cases r with
    | nil => simp [is_avl_node, h1, hd]
    | node rk rv rh rl rr =>
      have h2 : k < rk := hr (rk, rv) (by simp [pairs_node])
      simp [is_avl_node, h1, h2, hd]

theorem is_avl_tree_of_invariants (t : Link K V)
    (ot : ordered t = true) (bt : balancedB t = true) : is_avl_tree t = true := by
  induction t with
  | nil => rfl
  | node k v h l r ihl ihr =>
    rw [ordered_node_iff] at ot
    obtain ⟨pl, pr, ol, orr⟩ := ot
    rw [balancedB_node_iff] at bt
    obtain ⟨⟨b1, b2⟩, bl, br⟩ := bt
    simp [is_avl_tree, is_avl_node_of k l r pl pr b1 b2, ihl ol bl, ihr orr br]

theorem mfind_append_right (xs ys : List (K × V)) (key k0 : K) (v0 : V)
    (hxs : ∀ p ∈ xs, p.1 ≠ key) (h0 : k0 ≠ key) :
    mfind (xs ++ (k0, v0) :: ys) key = mfind ys key := by
  have hx : List.find? (fun p => decide (p.1 = key)) xs = none := by
    rw [List.find?_eq_none]
    intro p hp
    simpa using hxs p hp
  have hcons : List.find? (fun p => decide (p.1 = key)) ((k0, v0) :: ys) =
      List.find? (fun p => decide (p.1 = key)) ys :=
    List.find?_cons_of_neg _ (by simp [h0])
  simp only [mfind, List.find?_append, hx, hcons, Option.none_or]

theorem mfind_append_left (xs ys : List (K × V)) (key k0 : K) (v0 : V)
    (hys : ∀ p ∈ ys, p.1 ≠ key) (h0 : k0 ≠ key) :
    mfind (xs ++ (k0, v0) :: ys) key = mfind xs key := by
  have hy : List.find? (fun p => decide (p.1 = key)) ys = none := by
    rw [List.find?_eq_none]
    intro p hp
    simpa using hys p hp
  have hcons : List.find? (fun p => decide (p.1 = key)) ((k0, v0) :: ys) = none := by
    rw [List.find?_cons_of_neg _ (by simp [h0]), hy]
  simp only [mfind, List.find?_append, hcons, Option.or_none]

theorem search_pair_model (t : Link K V) (key : K) (ot : ordered t = true) :
    search_pair t key = mfind (pairs t) key := by
  induction t with
  | nil => simp [search_pair, pairs_nil, mfind]
  | node k v h l r ihl ihr =>
    rw [ordered_node_iff] at ot
    obtain ⟨pl, pr, ol, orr⟩ := ot
    rw [pairs_node]
    by_cases h1 : k < key
    · rw [mfind_append_right (pairs l) (pairs r) key k v
        (fun p hp => ne_of_lt (lt_trans (pl p hp) h1)) (ne_of_lt h1)]
      simp only [search_pair, if_pos h1]
      exact ihr orr
    · by_cases h2 : key < k
      · rw [mfind_append_left (pairs l) (pairs r) key k v
          (fun p hp => (ne_of_lt (lt_trans h2 (pr p hp))).symm) ((ne_of_lt h2).symm)]
        simp only [search_pair, if_neg h1, if_pos h2]
        exact ihl ol
      · have hk : k = key := le_antisymm (not_lt.1 h2) (not_lt.1 h1)
        subst hk
        have hx : List.find? (fun p => decide (p.1 = k)) (pairs l) = none := by
          rw [List.find?_eq_none]
          intro p hp
          simpa using ne_of_lt (pl p hp)
        have hpos : List.find? (fun p => decide (p.1 = k)) ((k, v) :: pairs r) =
            some (k, v) :=
          List.find?_cons_of_pos _ (by simp)
        simp only [search_pair, if_neg h1, if_neg h2, mfind, List.find?_append, hx,
          Option.none_or, hpos]

theorem search_model (t : Link K V) (key : K) (ot : ordered t = true) :
    search t key = (mfind (pairs t) key).map Prod.snd := by
  rw [search, search_pair_model t key ot]

theorem successor_model (t : Link K V) (key : K) (ot : ordered t = true) :
    successor t key = (pairs t).find? fun p => decide (key < p.1) := by
  induction t with
  | nil => simp [successor, pairs_nil]
  | node k v h l r ihl ihr =>
    rw [ordered_node_iff] at ot
    obtain ⟨pl, pr, ol, orr⟩ := ot
    rw [pairs_node, List.find?_append]
    by_cases h1 : key < k
    · have hpos : List.find? (fun p => decide (key < p.1)) ((k, v) :: pairs r) =
          some (k, v) := List.find?_cons_of_pos _ (by simp [h1])
      rw [hpos]
      cases l with
      | nil =>
        rw [successor.eq_def]
        simp [h1, pairs_nil]
      | node lk lv lh ll lr =>
        rw [successor.eq_def]
        simp only [if_pos h1]
        rw [← ihl ol]
    · by_cases h2 : k < key
      · have hl0 : List.find? (fun p => decide (key < p.1)) (pairs l) = none := by
          rw [List.find?_eq_none]
          intro p hp
          simp [not_lt.2 (le_of_lt (lt_trans (pl p hp) h2))]
        have hcons : List.find? (fun p => decide (key < p.1)) ((k, v) :: pairs r) =
            List.find? (fun p => decide (key < p.1)) (pairs r) :=
          List.find?_cons_of_neg _ (by simp [not_lt.2 (le_of_lt h2)])
        rw [hl0, Option.none_or, hcons]
        rw [successor.eq_def]
        simp only [if_neg h1, if_pos h2]
        exact ihr orr
      · have hk : k = key := le_antisymm (not_lt.1 h1) (not_lt.1 h2)
        subst hk
        have hl0 : List.find? (fun p => decide (k < p.1)) (pairs l) = none := by
          rw [List.find?_eq_none]
          intro p hp
          simp [not_lt.2 (le_of_lt (pl p hp))]
        have hcons : List.find? (fun p => decide (k < p.1)) ((k, v) :: pairs r) =
            List.find? (fun p => decide (k < p.1)) (pairs r) :=
          List.find?_cons_of_neg _ (by simp)
        rw [hl0, Option.none_or, hcons]
        rw [successor.eq_def]
        simp only [if_neg h1, if_neg h2]
        cases r with
        | nil => simp [pairs_nil]
        | node rk rv rh rl rr =>
          have hall : ∀ p ∈ pairs (node rk rv rh rl rr), decide (k < p.1) = true := by
            intro p hp
            simp [pr p hp]
          rw [find?_eq_head?_of_all hall, pairs_node, node_min_pair_head]

theorem predecessor_model (t : Link K V) (key : K) (ot : ordered t = true) :
    predecessor t key = (pairs t).reverse.find? fun p => decide (p.1 < key) := by
  induction t with
  | nil => simp [predecessor, pairs_nil]
  | node k v h l r ihl ihr =>
    rw [ordered_node_iff] at ot
    obtain ⟨pl, pr, ol, orr⟩ := ot
    rw [pairs_node, List.reverse_append, List.reverse_cons, List.append_assoc,
      List.cons_append, List.nil_append, List.find?_append]
    by_cases h1 : k < key
    · have hpos : List.find? (fun p => decide (p.1 < key)) ((k, v) :: (pairs l).reverse) =
          some (k, v) := List.find?_cons_of_pos _ (by simp [h1])
      rw [hpos]
      cases r with
      | nil =>
        rw [predecessor.eq_def]
        simp [h1, pairs_nil]
      | node rk rv rh rl rr =>
        rw [predecessor.eq_def]
        simp only [if_pos h1]
        rw [← ihr orr]
    · by_cases h2 : key < k
      · have hr0 : List.find? (fun p => decide (p.1 < key)) (pairs r).reverse = none := by
          rw [List.find?_eq_none]
          intro p hp
          simp [not_lt.2 (le_of_lt (lt_trans h2 (pr p (List.mem_reverse.1 hp))))]
        have hcons : List.find? (fun p => decide (p.1 < key)) ((k, v) :: (pairs l).reverse) =
            List.find? (fun p => decide (p.1 < key)) (pairs l).reverse :=
          List.find?_cons_of_neg _ (by simp [not_lt.2 (le_of_lt h2)])
        rw [hr0, Option.none_or, hcons]
        rw [predecessor.eq_def]
        simp only [if_neg h1, if_pos h2]
        exact ihl ol
      · have hk : k = key := le_antisymm (not_lt.1 h2) (not_lt.1 h1)
        subst hk
        have hr0 : List.find? (fun p => decide (p.1 < k)) (pairs r).reverse = none := by
          rw [List.find?_eq_none]
          intro p hp
          simp [not_lt.2 (le_of_lt (pr p (List.mem_reverse.1 hp)))]
        have hcons : List.find? (fun p => decide (p.1 < k)) ((k, v) :: (pairs l).reverse) =
            List.find? (fun p => decide (p.1 < k)) (pairs l).reverse :=
          List.find?_cons_of_neg _ (by simp)
        rw [hr0, Option.none_or, hcons]
        rw [predecessor.eq_def]
        simp only [if_neg h1, if_neg h2]
        cases l with
        | nil => simp [pairs_nil]
        | node lk lv lh ll lr =>
          have hall : ∀ p ∈ (pairs (node lk lv lh ll lr)).reverse,
              decide (p.1 < k) = true := by
            intro p hp
            simp [pl p (List.mem_reverse.1 hp)]
          rw [find?_eq_head?_of_all hall, pairs_node, List.reverse_append,
            List.reverse_cons, List.append_assoc, List.cons_append, List.nil_append,
            node_max_pair_head]

theorem heightOf_set_value (t : Link K V) (key : K) (value : V) :
    heightOf (set_value t key value) = heightOf t := by
  cases t with
  | nil => rfl
  | node k v h l r =>
    simp only [set_value]
    split_ifs <;> rfl

theorem strip_set_value (t : Link K V) (key : K) (value : V) :
    strip (set_value t key value) = strip t := by
  induction t with
  | nil => rfl
  | node k v h l r ihl ihr =>
    simp only [set_value]
    split_ifs <;> simp [strip, ihl, ihr]

theorem insert_existing (t : Link K V) (key : K) (value : V)
    (ht : heights_ok t = true) (bt : balancedB t = true)
    (hc : contains t key = true) :
    insert t key value = some (set_value t key value) := by
  induction t with
  | nil => simp [contains, search, search_pair] at hc
  | node k v h l r ihl ihr =>
    rw [heights_ok_node_iff] at ht
    obtain ⟨heq, okl, okr⟩ := ht
    rw [balancedB_node_iff] at bt
    obtain ⟨⟨b1, b2⟩, bl, br⟩ := bt
    by_cases h1 : key < k
    · have hcl : contains l key = true := by
        simpa [contains, search, search_pair, lt_asymm h1, h1] using hc
      have hupd : update_node k v (set_value l key value) r =
          some (node k v (max (heightOf l) (heightOf r) + 1) (set_value l key value) r) := by
        unfold update_node rotate_if_necessary
        simp only [diff_of_height, heightOf_set_value]
        rw [if_pos ⟨b1, b2⟩]
      simp only [insert, if_pos h1, ihl okl bl hcl, Option.some_bind, hupd, ← heq]
      simp only [set_value, if_neg (lt_asymm h1), if_pos h1]
    · by_cases h2 : k < key
      · have hcr : contains r key = true := by
          simpa [contains, search, search_pair, lt_asymm h2, h2] using hc
        have hupd : update_node k v l (set_value r key value) =
            some (node k v (max (heightOf l) (heightOf r) + 1) l (set_value r key value)) := by
          unfold update_node rotate_if_necessary
          simp only [diff_of_height, heightOf_set_value]
          rw [if_pos ⟨b1, b2⟩]
        simp only [insert, if_neg h1, if_pos h2, ihr okr br hcr, Option.some_bind, hupd,
          ← heq]
        simp only [set_value, if_pos h2]
      · have hk : k = key := le_antisymm (not_lt.1 h1) (not_lt.1 h2)
        subst hk
        simp only [insert, if_neg h1, if_neg h2]
        simp only [set_value, if_neg h1, if_neg h2]

theorem delete_absent (t : Link K V) (key : K)
    (ht : heights_ok t = true) (bt : balancedB t = true)
    (hc : contains t key = false) :
    delete t key = some t := by
  induction t with
  | nil => rfl
  | node k v h l r ihl ihr =>
    rw [heights_ok_node_iff] at ht
    obtain ⟨heq, okl, okr⟩ := ht
    rw [balancedB_node_iff] at bt
    obtain ⟨⟨b1, b2⟩, bl, br⟩ := bt
    by_cases h1 : k < key
    · cases r with
      | nil =>
        rw [delete.eq_def]
        simp [h1]
      | node rk rv rh rl rr =>
        have hcr : contains (node rk rv rh rl rr) key = false := by
          simpa [contains, search, search_pair, lt_asymm h1, h1] using hc
        have hupd : update_node k v l (node rk rv rh rl rr) =
            some (node k v (max (heightOf l) (heightOf (node rk rv rh rl rr)) + 1) l
              (node rk rv rh rl rr)) := by
          unfold update_node rotate_if_necessary
          rw [if_pos ⟨b1, b2⟩]
        rw [delete.eq_def]
        simp only [if_pos h1, ihr okr br hcr, Option.some_bind, hupd, ← heq]
    · by_cases h2 : key < k
      · cases l with
        | nil =>
          rw [delete.eq_def]
          simp [h1, h2]
        | node lk lv lh ll lr =>
          have hcl : contains (node lk lv lh ll lr) key = false := by
            simpa [contains, search, search_pair, lt_asymm h2, h2] using hc
          have hupd : update_node k v (node lk lv lh ll lr) r =
              some (node k v (max (heightOf (node lk lv lh ll lr)) (heightOf r) + 1)
                (node lk lv lh ll lr) r) := by
            unfold update_node rotate_if_necessary
            rw [if_pos ⟨b1, b2⟩]
          rw [delete.eq_def]
          simp only [if_neg h1, if_pos h2, ihl okl bl hcl, Option.some_bind, hupd, ← heq]
      · have hk : k = key := le_antisymm (not_lt.1 h2) (not_lt.1 h1)
        subst hk
        simp [contains, search, search_pair, h1, h2] at hc

theorem prev_order_eq_map (t : Link K V) :
    prev_order t = (prev_order_pairs t).map Prod.fst := by
  induction t with
  | nil => rfl
  | node k v h l r ihl ihr => simp [prev_order, prev_order_pairs, ihl, ihr]

theorem post_order_eq_map (t : Link K V) :
    post_order t = (post_order_pairs t).map Prod.fst := by
  induction t with
  | nil => rfl
  | node k v h l r ihl ihr => simp [post_order, post_order_pairs, ihl, ihr]

theorem bfs_eq_map (q : List (Link K V)) : bfs q = (bfs_pairs q).map Prod.fst := by
  induction q using bfs.induct with
  | case1 => simp [bfs, bfs_pairs]
  | case2 rest ih => simp only [bfs, bfs_pairs, ih]
  | case3 k v h l r rest ih => simp only [bfs, bfs_pairs, ih, List.map_cons]

theorem level_order_eq_map (t : Link K V) :
    level_order t = (level_order_pairs t).map Prod.fst := by
  cases t with
  | nil => exact bfs_eq_map _
  | node k v h l r => exact bfs_eq_map _

theorem prev_order_pairs_perm (t : Link K V) :
    (prev_order_pairs t).Perm (pairs t) := by
  induction t with
  | nil => exact List.Perm.refl _
  | node k v h l r ihl ihr =>
    rw [prev_order_pairs, pairs_node]
    exact ((ihl.append ihr).cons (k, v)).trans List.perm_middle.symm

theorem post_order_pairs_perm (t : Link K V) :
    (post_order_pairs t).Perm (pairs t) := by
  induction t with
  | nil => exact List.Perm.refl _
  | node k v h l r ihl ihr =>
    rw [post_order_pairs, pairs_node, List.append_assoc]
    exact ihl.append ((List.perm_append_singleton _ _).trans (ihr.cons (k, v)))

theorem bfs_pairs_perm (q : List (Link K V)) :
    (bfs_pairs q).Perm (q.map pairs).flatten := by
  induction q using bfs_pairs.induct with
  | case1 => simp [bfs_pairs]
  | case2 rest ih => simpa [bfs_pairs, pairs, in_order_pairs] using ih
  | case3 k v h l r rest ih =>
    rw [bfs_pairs, List.map_cons, List.flatten_cons, pairs_node]
    have h1 : ((rest ++ [l, r]).map pairs).flatten =
        (rest.map pairs).flatten ++ (pairs l ++ pairs r) := by simp
    rw [h1] at ih
    have inner : ((rest.map pairs).flatten ++ (pairs l ++ pairs r)).Perm
        (pairs l ++ (pairs r ++ (rest.map pairs).flatten)) := by
      have hcomm : ((rest.map pairs).flatten ++ (pairs l ++ pairs r)).Perm
          ((pairs l ++ pairs r) ++ (rest.map pairs).flatten) :=
        List.perm_append_comm
      simpa [List.append_assoc] using hcomm
    have hfinal : (pairs l ++ (k, v) :: pairs r) ++ (rest.map pairs).flatten =
        pairs l ++ ((k, v) :: (pairs r ++ (rest.map pairs).flatten)) := by simp
    rw [hfinal]
    exact ((ih.cons (k, v)).trans (inner.cons (k, v))).trans List.perm_middle.symm

theorem level_order_pairs_perm (t : Link K V) :
    (level_order_pairs t).Perm (pairs t) := by
  cases t with
  | nil => simp [level_order_pairs, bfs_pairs, pairs, in_order_pairs]
  | node k v h l r =>
    have hp := bfs_pairs_perm [node k v h l r]
    simpa [level_order_pairs] using hp

theorem search_pair_self (t : Link K V) (ot : ordered t = true) :
    ∀ q ∈ pairs t, search_pair t q.1 = some q := by
  intro q hq
  obtain ⟨qk, qv⟩ := q
  rw [search_pair_model t qk ot]
  exact sorted_mfind_of_mem (ordered_pairwise t ot) hq

theorem filterMap_lookup {f : K → Option (K × V)} :
    ∀ (P : List (K × V)), (∀ p ∈ P, f p.1 = some p) →
      (P.map Prod.fst).filterMap f = P
  | [], _ => rfl
  | p :: rest, h => by
    have ih := filterMap_lookup rest fun q hq => h q (List.mem_cons_of_mem _ hq)
    simp [List.filterMap_cons, h p (List.mem_cons_self _ _), ih]

theorem lookup_pairs_eq (t : Link K V) (P : List (K × V)) (ot : ordered t = true)
    (hmem : ∀ p ∈ P, p ∈ pairs t) :
    lookup_pairs t (P.map Prod.fst) = P := by
  rw [lookup_pairs]
  exact filterMap_lookup P fun p hp => search_pair_self t ot p (hmem p hp)

theorem preorder_iter_eq (t : Link K V) (ot : ordered t = true) :
    preorder_iter t = prev_order_pairs t := by
  rw [preorder_iter, prev_order_eq_map]
  exact lookup_pairs_eq t _ ot fun p hp => (prev_order_pairs_perm t).mem_iff.1 hp

theorem inorder_iter_eq (t : Link K V) (ot : ordered t = true) :
    inorder_iter t = pairs t := by
  rw [inorder_iter, in_order_eq_map]
  exact lookup_pairs_eq t _ ot fun p hp => hp

theorem postorder_iter_eq (t : Link K V) (ot : ordered t = true) :
    postorder_iter t = post_order_pairs t := by
  rw [postorder_iter, post_order_eq_map]
  exact lookup_pairs_eq t _ ot fun p hp => (post_order_pairs_perm t).mem_iff.1 hp

theorem levelorder_iter_eq (t : Link K V) (ot : ordered t = true) :
    levelorder_iter t = level_order_pairs t := by
  rw [levelorder_iter, level_order_eq_map]
  exact lookup_pairs_eq t _ ot fun p hp => (level_order_pairs_perm t).mem_iff.1 hp

theorem lowOkB_mono (lo : Bound K) (a b : K) (hab : a ≤ b)
    (ha : lowOkB lo a = true) : lowOkB lo b = true := by
  cases lo with
  | unbounded => rfl
  | included key =>
    simp only [lowOkB, decide_eq_true_eq] at *
    exact le_trans ha hab
  | excluded key =>
    simp only [lowOkB, decide_eq_true_eq] at *
    exact lt_of_lt_of_le ha hab

theorem highOkB_mono (hi : Bound K) (a b : K) (hab : a ≤ b)
    (hb : highOkB hi b = true) : highOkB hi a = true := by
  cases hi with
  | unbounded => rfl
  | included key =>
    simp only [highOkB, decide_eq_true_eq] at *
    exact le_trans hab hb
  | excluded key =>
    simp only [highOkB, decide_eq_true_eq] at *
    exact lt_of_le_of_lt hab hb

theorem find?_congr_mem {A : Type} {p q : A → Bool} :
    ∀ {l : List A}, (∀ a ∈ l, p a = q a) → l.find? p = l.find? q
  | [], _ => rfl
  | a :: l, h => by
    have hpq := h a (List.mem_cons_self _ _)
    by_cases hpa : p a = true
    · rw [List.find?_cons_of_pos _ hpa, List.find?_cons_of_pos _ (hpq ▸ hpa)]
    · rw [List.find?_cons_of_neg _ hpa, List.find?_cons_of_neg _ (hpq ▸ hpa),
        find?_congr_mem fun b hb => h b (List.mem_cons_of_mem _ hb)]

theorem sorted_find_le_of_mem {xs : List (K × V)}
    (hs : xs.Pairwise fun a b => a.1 < b.1) {k : K} {x : V} (hm : (k, x) ∈ xs) :
    xs.find? (fun p => decide (k ≤ p.1)) = some (k, x) := by
  induction xs with
  | nil => simp at hm
  | cons p rest ih =>
    rcases List.mem_cons.1 hm with rfl | hm
    · exact List.find?_cons_of_pos _ (by simp)
    · have hp : p.1 < k := (List.pairwise_cons.1 hs).1 (k, x) hm
      rw [List.find?_cons_of_neg _ (by simp [not_le.2 hp]),
        ih (List.pairwise_cons.1 hs).2 hm]

theorem head_filter_eq {xs : List (K × V)} (hs : xs.Pairwise fun a b => a.1 < b.1)
    (pl ph : K → Bool) (hmono : ∀ a b : K, a ≤ b → ph b = true → ph a = true) :
    (xs.filter fun q => pl q.1 && ph q.1).head? =
      (xs.find? fun q => pl q.1).bind fun p => if ph p.1 = true then some p else none := by
  induction xs with
  | nil => rfl
  | cons a rest ih =>
    obtain ⟨ha, htail⟩ := List.pairwise_cons.1 hs
    by_cases hpa : pl a.1 = true
    · rw [List.find?_cons_of_pos (a := a) (p := fun q => pl q.1) _ hpa]
      by_cases hha : ph a.1 = true
      · rw [List.filter_cons_of_pos (a := a) (p := fun q => pl q.1 && ph q.1)
          (by simp [hpa, hha])]
        simp [hha]
      · rw [List.filter_cons_of_neg (a := a) (p := fun q => pl q.1 && ph q.1)
          (by simp [hha])]
        have hempty : (rest.filter fun q => pl q.1 && ph q.1) = [] := by
          rw [List.filter_eq_nil_iff]
          intro b hb
          have hb1 : ¬ ph b.1 = true := fun hphb =>
            hha (hmono a.1 b.1 (le_of_lt (ha b hb)) hphb)
          simp [hb1]
        rw [hempty]
        simp [hha]
    · rw [List.find?_cons_of_neg (a := a) (p := fun q => pl q.1) _ hpa,
        List.filter_cons_of_neg (a := a) (p := fun q => pl q.1 && ph q.1) (by simp [hpa]),
        ih htail]

theorem filter_step {xs : List (K × V)} (hs : xs.Pairwise fun a b => a.1 < b.1)
    (pl ph : K → Bool) (hup : ∀ a b : K, a ≤ b → pl a = true → pl b = true)
    {p : K × V} {rest : List (K × V)}
    (h : (xs.filter fun q => pl q.1 && ph q.1) = p :: rest) :
    (xs.filter fun q => decide (p.1 < q.1) && ph q.1) = rest := by
  induction xs with
  | nil => simp at h
  | cons a l ih =>
    obtain ⟨ha, htail⟩ := List.pairwise_cons.1 hs
    by_cases hpa : (pl a.1 && ph a.1) = true
    · rw [List.filter_cons_of_pos (a := a) (p := fun q => pl q.1 && ph q.1) hpa] at h
      injection h with ha2 h2
      subst ha2
      rw [List.filter_cons_of_neg (a := a) (p := fun q => decide (a.1 < q.1) && ph q.1)
        (by simp)]
      rw [← h2]
      apply List.filter_congr
      intro b hb
      have hlt : a.1 < b.1 := ha b hb
      have hplb : pl b.1 = true :=
        hup a.1 b.1 (le_of_lt hlt) (Bool.and_elim_left hpa)
      simp [hlt, hplb]
    · rw [List.filter_cons_of_neg (a := a) (p := fun q => pl q.1 && ph q.1) hpa] at h
      have hpm : p ∈ l.filter fun q => pl q.1 && ph q.1 := by
        rw [h]; exact List.mem_cons_self _ _
      have hap : a.1 < p.1 := ha p (List.mem_of_mem_filter hpm)
      rw [List.filter_cons_of_neg (a := a) (p := fun q => decide (p.1 < q.1) && ph q.1)
        (by simp [lt_asymm hap])]
      exact ih htail h

theorem min_pair_eq_head (t : Link K V) : min_pair t = (pairs t).head? := by
  cases t with
  | nil => rfl
  | node k v h l r => rw [min_pair, pairs_node, node_min_pair_head]

theorem max_pair_eq_head_reverse (t : Link K V) :
    max_pair t = (pairs t).reverse.head? := by
  cases t with
  | nil => rfl
  | node k v h l r =>
    rw [max_pair, pairs_node, List.reverse_append, List.reverse_cons, List.append_assoc,
      List.cons_append, List.nil_append, node_max_pair_head]

theorem check_upper_eq (it : RangePairIter K V) (cur : K × V) :
    RangePairIter.check_upper_bound it cur =
      if highOkB it.to_ cur.1 = true then some cur else none := by
  obtain ⟨t, lo, hi, prev⟩ := it
  cases hi <;> rfl

theorem emit_none (t : Link K V) (lo hi : Bound K) :
    emit (⟨t, lo, hi, none⟩ : RangePairIter K V) =
      (pairs t).filter fun q => lowOkB lo q.1 && highOkB hi q.1 := rfl

theorem emit_some (t : Link K V) (lo hi : Bound K) (pk : K) :
    emit (⟨t, lo, hi, some pk⟩ : RangePairIter K V) =
      (pairs t).filter fun q => decide (pk < q.1) && highOkB hi q.1 := rfl

theorem get_lower_bound_pair_model (t : Link K V) (lo hi : Bound K)
    (prev : Option K) (ot : ordered t = true) :
    RangePairIter.get_lower_bound_pair ⟨t, lo, hi, prev⟩ =
      (pairs t).find? fun q => lowOkB lo q.1 := by
  cases lo with
  | unbounded =>
    simp only [RangePairIter.get_lower_bound_pair]
    rw [min_pair_eq_head]
    exact (find?_eq_head?_of_all fun a ha => rfl).symm
  | included key =>
    simp only [RangePairIter.get_lower_bound_pair]
    cases hsp : search_pair t key with
    | some p =>
      have hm : mfind (pairs t) key = some p := by
        rw [← search_pair_model t key ot, hsp]
      have hp1 : p.1 = key := by simpa using List.find?_some hm
      have hpm : p ∈ pairs t := List.mem_of_find?_eq_some hm
      obtain ⟨pk, pv⟩ := p
      simp only at hp1
      subst hp1
      simp only [lowOkB]
      exact (sorted_find_le_of_mem (ordered_pairwise t ot) hpm).symm
    | none =>
      have hm : mfind (pairs t) key = none := by
        rw [← search_pair_model t key ot, hsp]
      have hne : ∀ q ∈ pairs t, q.1 ≠ key := by
        intro q hq
        simpa using List.find?_eq_none.1 hm q hq
      rw [successor_model t key ot]
      apply find?_congr_mem
      intro q hq
      simp only [lowOkB]
      by_cases hlt : key < q.1
      · simp [hlt, le_of_lt hlt]
      · have hno : ¬ key ≤ q.1 := fun hle =>
          hlt (lt_of_le_of_ne hle (Ne.symm (hne q hq)))
        simp [hlt, hno]
  | excluded key =>
    simp only [RangePairIter.get_lower_bound_pair, lowOkB]
    exact successor_model t key ot

theorem get_next_pair_model_none (t : Link K V) (lo hi : Bound K)
    (ot : ordered t = true) :
    RangePairIter.get_next_pair ⟨t, lo, hi, none⟩ =
      (pairs t).find? fun q => lowOkB lo q.1 :=
  get_lower_bound_pair_model t lo hi none ot

theorem get_next_pair_model_some (t : Link K V) (lo hi : Bound K) (pk : K)
    (ot : ordered t = true) :
    RangePairIter.get_next_pair ⟨t, lo, hi, some pk⟩ =
      (pairs t).find? fun q => decide (pk < q.1) :=
  successor_model t pk ot

theorem get_next_model (it : RangePairIter K V) (ot : ordered it.tree = true) :
    RangePairIter.get_next_key_under it =
      (match (emit it).head? with
       | none => (none, it)
       | some p => (some p, { it with prev := some p.1 })) := by
  obtain ⟨t, lo, hi, prev⟩ := it
  have hch : (fun cur : K × V =>
      RangePairIter.check_upper_bound (⟨t, lo, hi, prev⟩ : RangePairIter K V) cur) =
      fun cur : K × V => if highOkB hi cur.1 = true then some cur else none :=
    funext fun cur => check_upper_eq _ cur
  have hsc : ((RangePairIter.get_next_pair ⟨t, lo, hi, prev⟩).bind fun cur =>
      RangePairIter.check_upper_bound (⟨t, lo, hi, prev⟩ : RangePairIter K V) cur) =
      (emit (⟨t, lo, hi, prev⟩ : RangePairIter K V)).head? := by
    cases prev with
    | none =>
      rw [get_next_pair_model_none t lo hi ot, emit_none,
        head_filter_eq (ordered_pairwise t ot) (fun x => lowOkB lo x)
          (fun x => highOkB hi x) (highOkB_mono hi), hch]
    | some pk =>
      rw [get_next_pair_model_some t lo hi pk ot, emit_some,
        head_filter_eq (ordered_pairwise t ot) (fun x => decide (pk < x))
          (fun x => highOkB hi x) (highOkB_mono hi), hch]
  unfold RangePairIter.get_next_key_under
  rw [hsc]

theorem emit_step (it : RangePairIter K V) (ot : ordered it.tree = true)
    {p : K × V} {rest : List (K × V)} (h : emit it = p :: rest) :
    emit { it with prev := some p.1 } = rest := by
  obtain ⟨t, lo, hi, prev⟩ := it
  cases prev with
  | none =>
    rw [emit_none] at h
    show emit (⟨t, lo, hi, some p.1⟩ : RangePairIter K V) = rest
    rw [emit_some]
    exact filter_step (ordered_pairwise t ot) (fun x => lowOkB lo x)
      (fun x => highOkB hi x) (lowOkB_mono lo) h
  | some pk =>
    rw [emit_some] at h
    show emit (⟨t, lo, hi, some p.1⟩ : RangePairIter K V) = rest
    rw [emit_some]
    refine filter_step (ordered_pairwise t ot) (fun x => decide (pk < x))
      (fun x => highOkB hi x) ?_ h
    intro a b hab ha
    simp only [decide_eq_true_eq] at *
    exact lt_of_lt_of_le ha hab

theorem range_none_sticky (it : RangePairIter K V)
    (h : (RangePairIter.get_next_key_under it).1 = none) :
    (RangePairIter.get_next_key_under it).2 = it := by
  unfold RangePairIter.get_next_key_under at h ⊢
  cases hm : ((RangePairIter.get_next_pair it).bind fun cur =>
      RangePairIter.check_upper_bound it cur) with
  | none => rfl
  | some p =>
    rw [hm] at h
    simp at h

theorem range_take_emit (n : Nat) (it : RangePairIter K V)
    (ot : ordered it.tree = true) (hn : (emit it).length ≤ n) :
    RangePairIter.range_take it n = emit it := by
  induction n generalizing it with
  | zero =>
    have h0 : emit it = [] := List.length_eq_zero.1 (Nat.le_zero.1 hn)
    rw [h0]
    rfl
  | succ n ih =>
    cases he : emit it with
    | nil =>
      have hnext := get_next_model it ot
      rw [he] at hnext
      simp only [List.head?_nil] at hnext
      simp only [RangePairIter.range_take, hnext]
    | cons p rest =>
      have hnext := get_next_model it ot
      rw [he] at hnext
      simp only [List.head?_cons] at hnext
      have hstep : emit { it with prev := some p.1 } = rest := emit_step it ot he
      have htree : ({ it with prev := some p.1 } : RangePairIter K V).tree = it.tree :=
        rfl
      have hlen : (emit { it with prev := some p.1 }).length ≤ n := by
        rw [hstep]
        rw [he] at hn
        simpa using Nat.lt_succ_iff.1 (Nat.lt_of_lt_of_le (Nat.lt_succ_self _) hn)
      simp only [RangePairIter.range_take, hnext]
      rw [ih { it with prev := some p.1 } (htree ▸ ot) hlen, hstep]

theorem sorted_find_min {xs : List (K × V)} (hs : xs.Pairwise fun a b => a.1 < b.1)
    {key : K} {p : K × V} (hf : xs.find? (fun q => decide (key < q.1)) = some p) :
    ∀ q ∈ xs, key < q.1 → p.1 ≤ q.1 := by
  induction xs with
  | nil => simp at hf
  | cons a rest ih =>
    obtain ⟨ha, htail⟩ := List.pairwise_cons.1 hs
    intro q hq hkq
    by_cases hpa : (decide (key < a.1)) = true
    · rw [List.find?_cons_of_pos (a := a) (p := fun q => decide (key < q.1)) _ hpa] at hf
      injection hf with hf
      subst hf
      rcases List.mem_cons.1 hq with rfl | hq
      · exact le_refl _
      · exact le_of_lt (ha q hq)
    · rw [List.find?_cons_of_neg (a := a) (p := fun q => decide (key < q.1)) _ hpa] at hf
      rcases List.mem_cons.1 hq with rfl | hq
      · simp only [decide_eq_true_eq] at hpa
        exact absurd hkq hpa
      · exact ih htail hf q hq hkq

theorem sorted_find_max_aux {ys : List (K × V)}
    (hs : ys.Pairwise fun a b => b.1 < a.1) {key : K} {p : K × V}
    (hf : ys.find? (fun q => decide (q.1 < key)) = some p) :
    ∀ q ∈ ys, q.1 < key → q.1 ≤ p.1 := by
  induction ys with
  | nil => simp at hf
  | cons a rest ih =>
    obtain ⟨ha, htail⟩ := List.pairwise_cons.1 hs
    intro q hq hkq
    by_cases hpa : (decide (a.1 < key)) = true
    · rw [List.find?_cons_of_pos (a := a) (p := fun q => decide (q.1 < key)) _ hpa] at hf
      injection hf with hf
      subst hf
      rcases List.mem_cons.1 hq with rfl | hq
      · exact le_refl _
      · exact le_of_lt (ha q hq)
    · rw [List.find?_cons_of_neg (a := a) (p := fun q => decide (q.1 < key)) _ hpa] at hf
      rcases List.mem_cons.1 hq with rfl | hq
      · simp only [decide_eq_true_eq] at hpa
        exact absurd hkq hpa
      · exact ih htail hf q hq hkq

theorem sorted_find_max {xs : List (K × V)} (hs : xs.Pairwise fun a b => a.1 < b.1)
    {key : K} {p : K × V}
    (hf : xs.reverse.find? (fun q => decide (q.1 < key)) = some p) :
    ∀ q ∈ xs, q.1 < key → q.1 ≤ p.1 := by
  have hs2 : xs.reverse.Pairwise fun a b => b.1 < a.1 :=
    List.pairwise_reverse.2 hs
  exact fun q hq => sorted_find_max_aux hs2 hf q (List.mem_reverse.2 hq)

/-- Claim C1: starting from `AVLTree::new()`, every finite sequence of insert and
delete operations runs without panicking and yields a tree in which every node
satisfies `height == 1 + max(height(left), height(right))` (absent child = 0),
`|height(left) - height(right)| <= 1`, and the binary-search-tree order
invariant (that is `AvlB`); consequently the facade `is_avl_tree()` returns
`true` whenever the tree is non-empty. -/
theorem claim_C1 {K V : Type} [LinearOrder K] (ops : List (Op K V)) :
    ∃ t, apply_ops newTree ops = some t ∧ AvlB t = true ∧
      (t ≠ nil → tree_is_avl t = true) := by
  obtain ⟨t, h1, h2⟩ := apply_ops_spec ops nil rfl
  refine ⟨t, h1, h2, fun hne => ?_⟩
  rw [AvlB_iff] at h2
  have hv := is_avl_tree_of_invariants t h2.2.1 h2.2.2
  cases t with
  | nil => exact absurd rfl hne
  | node k v h l r => simpa [tree_is_avl] using hv

theorem claim_C1_witness :
    ∃ t, apply_ops (newTree : Link Nat Char) [Op.ins 1 'a', Op.del 2] = some t ∧
      AvlB t = true ∧ (t ≠ nil → tree_is_avl t = true) :=
  claim_C1 [Op.ins 1 'a', Op.del 2]

/-- Claim C2: on every tree satisfying the AVL invariant, `insert(k, v)`
succeeds and immediately afterwards `get(k) == Some(v)` and
`contains(k) == true`; `delete(k)` succeeds and immediately afterwards
`get(k) == None` and `contains(k) == false`. -/
theorem claim_C2 {K V : Type} [LinearOrder K] (t : Link K V) (k : K) (v : V)
    (ht : AvlB t = true) :
    (∃ t2, insert t k v = some t2 ∧ search t2 k = some v ∧
      contains t2 k = true) ∧
    (∃ t3, delete t k = some t3 ∧ search t3 k = none ∧
      contains t3 k = false) := by
  rw [AvlB_iff] at ht
  obtain ⟨h1, h2, h3⟩ := ht
  constructor
  · obtain ⟨t2, he, hh, ho, hb, hp, _⟩ := insert_spec t k v h1 h2 h3
    have hs : search t2 k = some v := by
      rw [search, search_pair_model t2 k ho, hp, mfind_minsert]
      rfl
    exact ⟨t2, he, hs, by rw [contains, hs]; rfl⟩
  · obtain ⟨t3, he, hh, ho, hb, hp, _⟩ := delete_spec t k h1 h2 h3
    have hs : search t3 k = none := by
      rw [search, search_pair_model t3 k ho, hp, mfind_mdelete]
      rfl
    exact ⟨t3, he, hs, by rw [contains, hs]; rfl⟩

theorem claim_C2_witness :
    AvlB (nil : Link Nat Char) = true ∧
    ((∃ t2, insert (nil : Link Nat Char) 1 'a' = some t2 ∧
        search t2 1 = some 'a' ∧ contains t2 1 = true) ∧
     (∃ t3, delete (nil : Link Nat Char) 1 = some t3 ∧
        search t3 1 = none ∧ contains t3 1 = false)) :=
  ⟨rfl, claim_C2 nil 1 'a' rfl⟩

/-- Claim C3: for every tree reachable from `AVLTree::new()` by a sequence of
inserts and deletes, `inorder_iter()` yields keys in strictly ascending
order. -/
theorem claim_C3 {K V : Type} [LinearOrder K] (ops : List (Op K V))
    (t : Link K V) (ht : apply_ops newTree ops = some t) :
    ((inorder_iter t).map Prod.fst).Pairwise (fun a b => a < b) := by
  obtain ⟨t2, h1, h2⟩ := apply_ops_spec ops (newTree : Link K V) rfl
  rw [ht] at h1
  injection h1 with h1
  subst h1
  rw [AvlB_iff] at h2
  rw [inorder_iter_eq t h2.2.1]
  exact List.pairwise_map.2 (ordered_pairwise t h2.2.1)

theorem claim_C3_witness :
    apply_ops (newTree : Link Nat Char) [Op.ins 2 'b', Op.ins 1 'a']
        = some (node 2 'b' 2 (node 1 'a' 1 nil nil) nil) ∧
    ((inorder_iter (node 2 'b' 2 (node 1 'a' 1 (nil : Link Nat Char) nil) nil)).map
        Prod.fst).Pairwise (fun a b => a < b) :=
  ⟨by decide, claim_C3 [Op.ins 2 'b', Op.ins 1 'a'] _ (by decide)⟩

/-- Claim C6: on every tree satisfying the AVL invariant in which key `k` is
already present, `insert(k, v2)` only replaces the value stored at `k`: the
result is exactly `set_value t k v2`, whose shape (every node's key, height and
left/right structure, i.e. `strip`) is that of `t`, and `get(k)` afterwards
returns the new value. -/
theorem claim_C6 {K V : Type} [LinearOrder K] (t : Link K V) (k : K) (v2 : V)
    (ht : AvlB t = true) (hc : contains t k = true) :
    insert t k v2 = some (set_value t k v2) ∧
    strip (set_value t k v2) = strip t ∧
    search (set_value t k v2) k = some v2 := by
  rw [AvlB_iff] at ht
  obtain ⟨t2, he, hh, ho, hb, hp, _⟩ := insert_spec t k v2 ht.1 ht.2.1 ht.2.2
  have hex := insert_existing t k v2 ht.1 ht.2.2 hc
  rw [he] at hex
  injection hex with hteq
  refine ⟨insert_existing t k v2 ht.1 ht.2.2 hc, strip_set_value t k v2, ?_⟩
  rw [← hteq, search, search_pair_model t2 k ho, hp, mfind_minsert]
  rfl

theorem claim_C6_witness :
    AvlB (node 1 'a' 1 (nil : Link Nat Char) nil) = true ∧
    contains (node 1 'a' 1 (nil : Link Nat Char) nil) 1 = true ∧
    (insert (node 1 'a' 1 (nil : Link Nat Char) nil) 1 'z' =
        some (set_value (node 1 'a' 1 nil nil) 1 'z') ∧
      strip (set_value (node 1 'a' 1 (nil : Link Nat Char) nil) 1 'z') =
        strip (node 1 'a' 1 (nil : Link Nat Char) nil) ∧
      search (set_value (node 1 'a' 1 (nil : Link Nat Char) nil) 1 'z') 1 =
        some 'z') :=
  ⟨rfl, rfl, claim_C6 (node 1 'a' 1 nil nil) 1 'z' rfl rfl⟩

/-- Claim C7: on every tree satisfying the AVL invariant, deleting a key that
is not contained in the tree is the identity: the returned tree is exactly the
old tree (so its `inorder_iter()` output is unchanged), and no error is
signalled (the result is `some`, never the panic `none`). -/
theorem claim_C7 {K V : Type} [LinearOrder K] (t : Link K V) (k : K)
    (ht : AvlB t = true) (hc : contains t k = false) :
    delete t k = some t ∧ (delete t k).map inorder_iter = some (inorder_iter t) := by
  rw [AvlB_iff] at ht
  have hid := delete_absent t k ht.1 ht.2.2 hc
  exact ⟨hid, by rw [hid]; rfl⟩

theorem claim_C7_witness :
    AvlB (node 1 'a' 1 (nil : Link Nat Char) nil) = true ∧
    contains (node 1 'a' 1 (nil : Link Nat Char) nil) 2 = false ∧
    (delete (node 1 'a' 1 (nil : Link Nat Char) nil) 2 =
        some (node 1 'a' 1 nil nil) ∧
      (delete (node 1 'a' 1 (nil : Link Nat Char) nil) 2).map inorder_iter =
        some (inorder_iter (node 1 'a' 1 (nil : Link Nat Char) nil))) :=
  ⟨rfl, rfl, claim_C7 (node 1 'a' 1 nil nil) 2 rfl rfl⟩

/-- Claim C8: on every tree satisfying the AVL invariant, `insert` and `delete`
never panic: in this embedding the `expect("AVL broken")` branches of
`left_rotate`/`right_rotate`/`left_balance`/`right_balance` and the
`unreachable!()` branch of `rotate_if_necessary` are the `none` results, and
under the invariant both operations always return `some`. -/
theorem claim_C8 {K V : Type} [LinearOrder K] (t : Link K V) (k : K) (v : V)
    (ht : AvlB t = true) :
    (insert t k v).isSome = true ∧ (delete t k).isSome = true := by
  rw [AvlB_iff] at ht
  obtain ⟨t2, he, _⟩ := insert_spec t k v ht.1 ht.2.1 ht.2.2
  obtain ⟨t3, hd, _⟩ := delete_spec t k ht.1 ht.2.1 ht.2.2
  exact ⟨by rw [he]; rfl, by rw [hd]; rfl⟩

theorem claim_C8_witness :
    AvlB (node 2 'b' 2 (node 1 'a' 1 (nil : Link Nat Char) nil) nil) = true ∧
    ((insert (node 2 'b' 2 (node 1 'a' 1 (nil : Link Nat Char) nil) nil)
        3 'c').isSome = true ∧
      (delete (node 2 'b' 2 (node 1 'a' 1 (nil : Link Nat Char) nil) nil)
        2).isSome = true) :=
  ⟨rfl, claim_C8 (node 2 'b' 2 (node 1 'a' 1 nil nil) nil) 3 'c' rfl⟩

/-- Claim C9: on every tree satisfying the AVL invariant (the unmutated-tree
reading of the claim), each two-pass traversal iterator (collect the keys, then
re-look-up each pair) yields exactly the single-pass collection of the pairs in
the same traversal order — one pair per node, the pair for key `k` being
`(k, value stored at k)` — and the per-key lookup never drops an entry (each
iterator has exactly `size` elements). -/
theorem claim_C9 {K V : Type} [LinearOrder K] (t : Link K V) (ht : AvlB t = true) :
    preorder_iter t = prev_order_pairs t ∧
    inorder_iter t = in_order_pairs t ∧
    postorder_iter t = post_order_pairs t ∧
    levelorder_iter t = level_order_pairs t ∧
    (preorder_iter t).length = size t ∧
    (inorder_iter t).length = size t ∧
    (postorder_iter t).length = size t ∧
    (levelorder_iter t).length = size t ∧
    (∀ p ∈ pairs t, search_pair t p.1 = some p) := by
  rw [AvlB_iff] at ht
  have ho := ht.2.1
  refine ⟨preorder_iter_eq t ho, inorder_iter_eq t ho, postorder_iter_eq t ho,
    levelorder_iter_eq t ho, ?_, ?_, ?_, ?_, search_pair_self t ho⟩
  · rw [preorder_iter_eq t ho, (prev_order_pairs_perm t).length_eq, length_pairs]
  · rw [inorder_iter_eq t ho, length_pairs]
  · rw [postorder_iter_eq t ho, (post_order_pairs_perm t).length_eq, length_pairs]
  · rw [levelorder_iter_eq t ho, (level_order_pairs_perm t).length_eq, length_pairs]

theorem claim_C9_witness :
    AvlB (node 2 'b' 2 (node 1 'a' 1 (nil : Link Nat Char) nil)
        (node 3 'c' 1 nil nil)) = true ∧
    preorder_iter (node 2 'b' 2 (node 1 'a' 1 (nil : Link Nat Char) nil)
        (node 3 'c' 1 nil nil)) =
      prev_order_pairs (node 2 'b' 2 (node 1 'a' 1 (nil : Link Nat Char) nil)
        (node 3 'c' 1 nil nil)) :=
  ⟨by decide, (claim_C9 (node 2 'b' 2 (node 1 'a' 1 nil nil) (node 3 'c' 1 nil nil))
    (by decide)).1⟩

/-- Claim C4: on every tree satisfying the AVL invariant, `successor(key)`
returns the stored pair whose key is the smallest key strictly greater than
`key` (`none` when no such key exists) and `predecessor(key)` the pair with the
largest key strictly smaller than `key`, whether or not `key` is present; in
particular, after inserting keys 1..10 with values 'a'..'j',
`successor(4) = (5, 'e')`, `successor(0) = (1, 'a')`, `successor(10) = none`
and `predecessor(1) = none`. -/
theorem claim_C4 :
    (∀ (K V : Type) [LinearOrder K] (t : Link K V) (key : K), AvlB t = true →
      (∀ p, successor t key = some p →
        p ∈ pairs t ∧ key < p.1 ∧ ∀ q ∈ pairs t, key < q.1 → p.1 ≤ q.1) ∧
      (successor t key = none → ∀ q ∈ pairs t, q.1 ≤ key) ∧
      (∀ p, predecessor t key = some p →
        p ∈ pairs t ∧ p.1 < key ∧ ∀ q ∈ pairs t, q.1 < key → q.1 ≤ p.1) ∧
      (predecessor t key = none → ∀ q ∈ pairs t, key ≤ q.1)) ∧
    ((apply_ops (newTree : Link Nat Char)
        [Op.ins 1 'a', Op.ins 2 'b', Op.ins 3 'c', Op.ins 4 'd', Op.ins 5 'e',
         Op.ins 6 'f', Op.ins 7 'g', Op.ins 8 'h', Op.ins 9 'i',
         Op.ins 10 'j']).map (fun t =>
        (successor t 4, successor t 0, successor t 10, predecessor t 1)) =
      some (some (5, 'e'), some (1, 'a'), none, none)) := by
  constructor
  · intro K V inst t key ht
    rw [AvlB_iff] at ht
    have ho := ht.2.1
    have hsorted := ordered_pairwise t ho
    refine ⟨?_, ?_, ?_, ?_⟩
    · intro p hp
      rw [successor_model t key ho] at hp
      refine ⟨List.mem_of_find?_eq_some hp, ?_, sorted_find_min hsorted hp⟩
      simpa using List.find?_some hp
    · intro hn q hq
      rw [successor_model t key ho] at hn
      simpa using List.find?_eq_none.1 hn q hq
    · intro p hp
      rw [predecessor_model t key ho] at hp
      refine ⟨List.mem_reverse.1 (List.mem_of_find?_eq_some hp), ?_,
        sorted_find_max hsorted hp⟩
      simpa using List.find?_some hp
    · intro hn q hq
      rw [predecessor_model t key ho] at hn
      simpa using List.find?_eq_none.1 hn q (List.mem_reverse.2 hq)
  · rfl

theorem claim_C4_witness :
    AvlB (node 1 'a' 1 (nil : Link Nat Char) nil) = true ∧
    ((∀ p, successor (node 1 'a' 1 (nil : Link Nat Char) nil) 0 = some p →
        p ∈ pairs (node 1 'a' 1 (nil : Link Nat Char) nil) ∧ 0 < p.1 ∧
          ∀ q ∈ pairs (node 1 'a' 1 (nil : Link Nat Char) nil),
            0 < q.1 → p.1 ≤ q.1) ∧
     (successor (node 1 'a' 1 (nil : Link Nat Char) nil) 0 = none →
        ∀ q ∈ pairs (node 1 'a' 1 (nil : Link Nat Char) nil), q.1 ≤ 0) ∧
     (∀ p, predecessor (node 1 'a' 1 (nil : Link Nat Char) nil) 0 = some p →
        p ∈ pairs (node 1 'a' 1 (nil : Link Nat Char) nil) ∧ p.1 < 0 ∧
          ∀ q ∈ pairs (node 1 'a' 1 (nil : Link Nat Char) nil),
            q.1 < 0 → q.1 ≤ p.1) ∧
     (predecessor (node 1 'a' 1 (nil : Link Nat Char) nil) 0 = none →
        ∀ q ∈ pairs (node 1 'a' 1 (nil : Link Nat Char) nil), 0 ≤ q.1)) :=
  ⟨rfl, claim_C4.1 Nat Char (node 1 'a' 1 nil nil) 0 rfl⟩

/-- Claim C5: on every tree satisfying the AVL invariant and for every pair of
bounds, `range_pair_iter(min, max)` yields exactly the stored pairs whose keys
satisfy the lower bound (`>= k` for `Included(k)`, `> k` for `Excluded(k)`,
anything for `Unbounded`) and the upper bound (`<= k`, `< k`, anything), in
strictly ascending key order; a poll that yields nothing leaves the iterator
state unchanged, so every further poll also yields nothing; in particular, for
keys 1..4 with values 'a'..'d', `(Included 1, Included 4)` yields all four
pairs and `(Excluded 1, Excluded 5)` yields exactly keys 2, 3, 4. -/
theorem claim_C5 :
    (∀ (K V : Type) [LinearOrder K] (t : Link K V) (lo hi : Bound K),
      AvlB t = true →
      (∀ n, size t ≤ n →
        RangePairIter.range_take (RangePairIter.new t lo hi) n =
          (pairs t).filter fun q => lowOkB lo q.1 && highOkB hi q.1) ∧
      (((pairs t).filter fun q => lowOkB lo q.1 && highOkB hi q.1).map
          Prod.fst).Pairwise (fun a b => a < b)) ∧
    (∀ (K V : Type) [LinearOrder K] (it : RangePairIter K V),
      (RangePairIter.get_next_key_under it).1 = none →
      (RangePairIter.get_next_key_under it).2 = it) ∧
    ((apply_ops (newTree : Link Nat Char)
        [Op.ins 1 'a', Op.ins 2 'b', Op.ins 3 'c', Op.ins 4 'd']).map (fun t =>
        (RangePairIter.range_take
           (RangePairIter.new t (Bound.included 1) (Bound.included 4)) 10,
         RangePairIter.range_take
           (RangePairIter.new t (Bound.excluded 1) (Bound.excluded 5)) 10)) =
      some ([(1, 'a'), (2, 'b'), (3, 'c'), (4, 'd')],
        [(2, 'b'), (3, 'c'), (4, 'd')])) := by
  refine ⟨?_, fun K V inst it h => range_none_sticky it h, by rfl⟩
  intro K V inst t lo hi ht
  rw [AvlB_iff] at ht
  have ho := ht.2.1
  constructor
  · intro n hn
    have hlen : (emit (⟨t, lo, hi, none⟩ : RangePairIter K V)).length ≤ n := by
      rw [emit_none]
      exact le_trans (le_trans (List.length_filter_le _ _)
        (le_of_eq (length_pairs t))) hn
    rw [show RangePairIter.new t lo hi = (⟨t, lo, hi, none⟩ : RangePairIter K V)
      from rfl, range_take_emit n _ ho hlen, emit_none]
  · exact List.pairwise_map.2 ((ordered_pairwise t ho).filter _)

theorem claim_C5_witness :
    AvlB (node 1 'a' 1 (nil : Link Nat Char) nil) = true ∧
    ((∀ n, size (node 1 'a' 1 (nil : Link Nat Char) nil) ≤ n →
        RangePairIter.range_take (RangePairIter.new
          (node 1 'a' 1 (nil : Link Nat Char) nil)
          Bound.unbounded Bound.unbounded) n =
          (pairs (node 1 'a' 1 (nil : Link Nat Char) nil)).filter fun q =>
            lowOkB Bound.unbounded q.1 && highOkB Bound.unbounded q.1) ∧
      (((pairs (node 1 'a' 1 (nil : Link Nat Char) nil)).filter fun q =>
          lowOkB Bound.unbounded q.1 && highOkB Bound.unbounded q.1).map
          Prod.fst).Pairwise (fun a b => a < b)) :=
  ⟨rfl, claim_C5.1 Nat Char (node 1 'a' 1 nil nil) Bound.unbounded
    Bound.unbounded rfl⟩

/-- Claim C10: `AVLTree::new()` is empty and is not a valid AVL tree
(`is_avl_tree()` is `false` on the empty tree by definition), while every
non-empty tree satisfying the invariants — including a single node — is. -/
theorem claim_C10 :
    is_empty (newTree : Link Nat Char) = true ∧
    tree_is_avl (newTree : Link Nat Char) = false ∧
    tree_is_avl (node 1 'a' 1 (nil : Link Nat Char) nil) = true ∧
    (∀ (K V : Type) [LinearOrder K] (t : Link K V),
      AvlB t = true → t ≠ nil → tree_is_avl t = true) := by
  refine ⟨rfl, rfl, rfl, ?_⟩
  intro K V inst t ht hne
  rw [AvlB_iff] at ht
  have hv := is_avl_tree_of_invariants t ht.2.1 ht.2.2
  cases t with
  | nil => exact absurd rfl hne
  | node k v h l r => simpa [tree_is_avl] using hv

theorem claim_C10_witness :
    AvlB (node 2 'b' 1 (nil : Link Nat Char) nil) = true ∧
    (node 2 'b' 1 (nil : Link Nat Char) nil) ≠ nil ∧
    tree_is_avl (node 2 'b' 1 (nil : Link Nat Char) nil) = true :=
  ⟨rfl, by simp, claim_C10.2.2.2 Nat Char (node 2 'b' 1 nil nil) rfl (by simp)⟩

end Link

end AvlVerif
